import Mathlib

/-!
# Minesweeper engine: a shallow embedding of `src/main.js`

The class `Minesweeper` owns one mutable field, `grid`, an array of rows of tile
objects.  Every method is embedded as a function that takes the grid and returns
the new grid (and the returned value, when it has one).

* A read `grid[row][column]` outside the matrix yields `undefined` in JavaScript
  and the field access that always follows it throws; such a read is `none`
  here, and every method that performs it is `Option`-valued.
* `Math.random()` is replaced by an oracle `rnd : Nat → Nat`; the index drawn in
  iteration `i` of the Fisher–Yates loop is `rnd i % (i + 1)`, so the oracles
  range over every outcome of the shuffle.
* The work-list loop of `revealSafeTilesFrom` carries a fuel counter; running
  out of fuel is `none`.  `revealLoop_spec` shows that the fuel handed out
  by `revealSafeTilesFrom` is never exhausted on a rectangular grid.
  `revealTrace` is the same loop returning also its visited set and the number
  of iterations; `revealLoop_eq_trace` relates the two.
-/

namespace Minesweeper

/-- One cell: `{ mine, revealed, marked }`. -/
structure Tile where
  mine : Bool
  revealed : Bool
  marked : Bool
deriving DecidableEq, Repr

/-- The field `grid`: an array of rows. -/
abbrev Grid := List (List Tile)

/-- A coordinate pair `[row, column]`. -/
abbrev Coord := Int × Int

/-- The value pair `[gameOver, playerWon]`. -/
abbrev Outcome := Bool × Bool

/-- `generateGrid`, inner loop: `for (c = 0; c < columns; c++) grid[r][c] = {...}`. -/
def generateRow : Nat → List Tile
  | 0 => []
  | c + 1 => generateRow c ++ [{ mine := false, revealed := false, marked := false }]

/-- `generateGrid`, outer loop: `for (r = 0; r < rows; r++) { grid[r] = []; ... }`. -/
def generateRows (columns : Int) : Nat → Grid
  | 0 => []
  | r + 1 => generateRows columns r ++ [generateRow columns.toNat]

/-- `generateGrid(rows, columns)`: the prior grid is discarded (`this.grid = []`). -/
def generateGrid (_prior : Grid) (rows columns : Int) : Grid :=
  generateRows columns rows.toNat

/-- `getGridSize()`: `[grid.length, grid[0].length]`; throws when there is no row 0. -/
def getGridSize (g : Grid) : Option (Nat × Nat) :=
  match g with
  | [] => none
  | row0 :: _ => some (g.length, row0.length)

/-- `getTile(row, column)`: `grid[row][column]`, `none` when the cell does not exist. -/
def getTile (g : Grid) (row column : Int) : Option Tile :=
  if 0 ≤ row ∧ 0 ≤ column then
    match g[row.toNat]? with
    | none => none
    | some rw => rw[column.toNat]?
  else none

/-- A write through a tile reference obtained from `getTile(row, column)`:
the tile object at that cell is replaced by `f` of itself. -/
def updTile (g : Grid) (row column : Int) (f : Tile → Tile) : Grid :=
  match getTile g row column with
  | none => g
  | some t => g.set row.toNat ((g.getD row.toNat []).set column.toNat (f t))

/-- `tile.mine = v`. -/
def setMine (v : Bool) (t : Tile) : Tile := { t with mine := v }

/-- `tile.revealed = v`. -/
def setRevealed (v : Bool) (t : Tile) : Tile := { t with revealed := v }

/-- `tile.marked = v`. -/
def setMarked (v : Bool) (t : Tile) : Tile := { t with marked := v }

/-- `this.revealed`: the engine object has no such property, so the expression
is `undefined`, which is falsy. -/
def thisRevealed : Bool := false

/-- The coordinates visited by `for (r = 0; r < rows; r++) for (c = 0; c < cols; c++)`,
in the order of the visit. -/
def scanOrder (rows cols : Nat) : List Coord :=
  (List.range rows).flatMap fun (r : Nat) =>
    (List.range cols).map fun (c : Nat) => ((r : Int), (c : Int))

/-- Reads the tile of every coordinate of the list, in order, and keeps the
coordinates whose tile satisfies `p`; fails when a read fails. -/
def filterCoords (g : Grid) (p : Tile → Bool) : List Coord → Option (List Coord)
  | [] => some []
  | (r, c) :: rest =>
    match getTile g r c with
    | none => none
    | some t =>
      match filterCoords g p rest with
      | none => none
      | some kept => some (if p t then (r, c) :: kept else kept)

/-- `[a[i], a[j]] = [a[j], a[i]]`. -/
def swapAt (l : List Coord) (i j : Nat) : List Coord :=
  match l[i]?, l[j]? with
  | some a, some b => (l.set i b).set j a
  | _, _ => l

/-- The Fisher–Yates loop `for (i = n; i > 0; i--) { j = floor(random() * (i + 1)); swap }`
started at `i = n`. -/
def shuffleFrom (rnd : Nat → Nat) : Nat → List Coord → List Coord
  | 0, l => l
  | i + 1, l => shuffleFrom rnd i (swapAt l (i + 1) (rnd (i + 1) % (i + 2)))

/-- The shuffle of `placeMines`: the loop starts at `freeTiles.length - 1`. -/
def shuffle (rnd : Nat → Nat) (l : List Coord) : List Coord :=
  shuffleFrom rnd (l.length - 1) l

/-- `while (placed < mines && freeTiles.length > 0) { [r, c] = freeTiles.pop();
getTile(r, c).mine = true; placed++ }`, with `todo = mines - placed`. -/
def placeLoop : Nat → Grid → List Coord → Option Grid
  | 0, g, _ => some g
  | todo + 1, g, freeTiles =>
    match freeTiles.getLast? with
    | none => some g
    | some (r, c) =>
      match getTile g r c with
      | none => none
      | some _ => placeLoop todo (updTile g r c (setMine true)) freeTiles.dropLast

/-- `placeMines(mines)`. -/
def placeMines (g : Grid) (mines : Int) (rnd : Nat → Nat) : Option Grid :=
  if mines ≤ 0 then some g
  else
    match getGridSize g with
    | none => none
    | some (rows, cols) =>
      match filterCoords g (fun t => !t.mine && !thisRevealed) (scanOrder rows cols) with
      | none => none
      | some freeTiles => placeLoop mines.toNat g (shuffle rnd freeTiles)

/-- The offsets visited by `for (ir = -1; ir <= 1; ir++) for (ic = -1; ic <= 1; ic++)`. -/
def offsets : List (Int × Int) :=
  [(-1, -1), (-1, 0), (-1, 1), (0, -1), (0, 0), (0, 1), (1, -1), (1, 0), (1, 1)]

/-- The body of the double loop of `getSurroundingTiles` for one offset:
`some` of the pushed coordinate, `none` when the iteration pushes nothing. -/
def neighbourAt (rows cols : Nat) (row column : Int) (allowDiagonals : Bool)
    (o : Int × Int) : Option Coord :=
  if o.1 = 0 ∧ o.2 = 0 then none
  else if !allowDiagonals ∧ o.1 ≠ 0 ∧ o.2 ≠ 0 then none
  else
    let cr := row + o.1
    let cc := column + o.2
    if cr ≥ 0 ∧ cr < rows ∧ cc ≥ 0 ∧ cc < cols then some (cr, cc) else none

/-- `getSurroundingTiles(row, column, allowDiagonals)`. -/
def getSurroundingTiles (g : Grid) (row column : Int) (allowDiagonals : Bool) :
    Option (List Coord) :=
  match getGridSize g with
  | none => none
  | some (rows, cols) =>
    some (offsets.filterMap (neighbourAt rows cols row column allowDiagonals))

/-- `getSurroundingMines(row, column)`. -/
def getSurroundingMines (g : Grid) (row column : Int) : Option (List Coord) :=
  match getSurroundingTiles g row column true with
  | none => none
  | some tiles => filterCoords g (fun t => t.mine) tiles

/-- The five counters of `checkWin`. -/
structure Counters where
  totalMines : Nat
  markedMines : Nat
  markedTiles : Nat
  correctlyRevealed : Nat
  totalTiles : Nat
deriving DecidableEq, Repr

/-- The body of the inner loop of `checkWin`; `Except.error v` is `return v`. -/
def scanTile (k : Counters) (tile : Tile) : Except Outcome Counters :=
  let k := { k with totalTiles := k.totalTiles + 1 }
  if tile.revealed && tile.mine then Except.error (true, false)
  else
    let k := if tile.revealed && !tile.mine then
      { k with correctlyRevealed := k.correctlyRevealed + 1 } else k
    let k := if tile.marked then { k with markedTiles := k.markedTiles + 1 } else k
    let k := if tile.mine then
      let k := { k with totalMines := k.totalMines + 1 }
      if tile.marked then { k with markedMines := k.markedMines + 1 } else k
    else k
    Except.ok k

/-- `for (const tile of row) ...`. -/
def scanRow (k : Counters) : List Tile → Except Outcome Counters
  | [] => Except.ok k
  | tile :: rest =>
    match scanTile k tile with
    | Except.error v => Except.error v
    | Except.ok k1 => scanRow k1 rest

/-- `for (const row of this.grid) ...`. -/
def scanGrid (k : Counters) : Grid → Except Outcome Counters
  | [] => Except.ok k
  | row :: rest =>
    match scanRow k row with
    | Except.error v => Except.error v
    | Except.ok k1 => scanGrid k1 rest

/-- `checkWin()`. -/
def checkWin (g : Grid) : Outcome :=
  match scanGrid ⟨0, 0, 0, 0, 0⟩ g with
  | Except.error v => v
  | Except.ok k =>
    let allMinesMarked := k.markedMines == k.totalMines && k.markedTiles == k.totalMines
    let allSafeRevealed := (k.correctlyRevealed : Int) == (k.totalTiles : Int) - (k.totalMines : Int)
    if allMinesMarked || allSafeRevealed then (true, true) else (false, false)

/-- `isGridEmpty()`. -/
def isGridEmpty (g : Grid) : Bool :=
  g.all fun row => row.all fun tile => !tile.revealed

/-- The loop `while (toCheck.length) ...` of `revealSafeTilesFrom`.  The work
list is kept with its top (the end of the array) at the head; `visited` holds
the keys of the visited set.  `none`: a read failed or the fuel ran out. -/
def revealLoop : Nat → Grid → List Coord → List Coord → Option Grid
  | _, g, [], _ => some g
  | 0, _, _ :: _, _ => none
  | fuel + 1, g, coords :: toCheck, visited =>
    if coords ∈ visited then revealLoop fuel g toCheck visited
    else
      match getTile g coords.1 coords.2 with
      | none => none
      | some tile =>
        if tile.mine then revealLoop fuel g toCheck (coords :: visited)
        else if tile.marked then revealLoop fuel g toCheck (coords :: visited)
        else
          let g1 := updTile g coords.1 coords.2 (setRevealed true)
          match getSurroundingMines g1 coords.1 coords.2 with
          | none => none
          | some nearbyMines =>
            if nearbyMines.length = 0 then
              match getSurroundingTiles g1 coords.1 coords.2 true with
              | none => none
              | some neighbours =>
                revealLoop fuel g1 (neighbours.reverse ++ toCheck) (coords :: visited)
            else revealLoop fuel g1 toCheck (coords :: visited)

/-- Fuel handed to the work-list loop: every cell is expanded at most once and
pushes at most eight coordinates. -/
def revealFuel (g : Grid) : Nat :=
  8 * (g.length * (g.headD []).length) + 1

/-- `revealSafeTilesFrom(row, column)`. -/
def revealSafeTilesFrom (g : Grid) (row column : Int) : Option Grid :=
  revealLoop (revealFuel g) g [(row, column)] []

/-- The counting loop of the chord branch of `guessTile`:
`if (t.marked || (t.mine && t.revealed)) marks++`. -/
def countMarks (g : Grid) : List Coord → Option Nat
  | [] => some 0
  | (r, c) :: rest =>
    match getTile g r c with
    | none => none
    | some t =>
      match countMarks g rest with
      | none => none
      | some n => some (if t.marked || (t.mine && t.revealed) then n + 1 else n)

/-- The revealing loop of the chord branch of `guessTile`. -/
def chordLoop (g : Grid) : List Coord → Option Grid
  | [] => some g
  | (r, c) :: rest =>
    match getTile g r c with
    | none => none
    | some t =>
      if !t.marked && !t.revealed then
        let g1 := updTile g r c (setRevealed true)
        if !t.mine then
          match revealSafeTilesFrom g1 r c with
          | none => none
          | some g2 => chordLoop g2 rest
        else chordLoop g1 rest
      else chordLoop g rest

/-- `guessTile(row, column, mark)`: the new grid and the returned pair. -/
def guessTile (g : Grid) (row column : Int) (mark : Bool) (rnd : Nat → Nat) :
    Option (Grid × Outcome) :=
  match getTile g row column with
  | none => none
  | some tile =>
    if mark || tile.marked then
      let g1 := updTile g row column (setMarked (!tile.marked))
      some (g1, checkWin g1)
    else if tile.mine && isGridEmpty g then
      let g1 := updTile (updTile g row column (setMine false)) row column (setRevealed true)
      match placeMines g1 1 rnd with
      | none => none
      | some g2 =>
        match revealSafeTilesFrom g2 row column with
        | none => none
        | some g3 => some (g3, checkWin g3)
    else if tile.revealed then
      if tile.mine then some (g, checkWin g)
      else
        match getSurroundingTiles g row column true with
        | none => none
        | some neighbours =>
          match countMarks g neighbours with
          | none => none
          | some marks =>
            match getSurroundingMines g row column with
            | none => none
            | some mines =>
              if marks = mines.length then
                match chordLoop g neighbours with
                | none => none
                | some g1 => some (g1, checkWin g1)
              else some (g, checkWin g)
    else if tile.mine then
      let g1 := updTile g row column (setRevealed true)
      some (g1, checkWin g1)
    else
      match revealSafeTilesFrom g row column with
      | none => none
      | some g1 => some (g1, checkWin g1)


/-! ## Specification vocabulary -/

/-- Row lengths of a grid. -/
def shape (g : Grid) : List Nat := g.map List.length

/-- Every row is as long as row 0. -/
def Rect (g : Grid) : Prop := ∀ n ∈ shape g, n = (shape g).headD 0

/-- The coordinate lies inside the matrix whose size `getGridSize` reports. -/
def InBounds (g : Grid) (row column : Int) : Prop :=
  0 ≤ row ∧ row < (shape g).length ∧ 0 ≤ column ∧ column < (shape g).headD 0

instance (g : Grid) : Decidable (Rect g) := by unfold Rect; infer_instance

instance (g : Grid) (row column : Int) : Decidable (InBounds g row column) := by
  unfold InBounds; infer_instance

/-- Number of tiles of the grid that satisfy `p`. -/
def countTiles (p : Tile → Bool) (g : Grid) : Nat := (g.map (List.countP p)).sum

/-- Some tile is revealed and a mine. -/
def hasRevealedMine (g : Grid) : Bool :=
  g.any fun row => row.any fun t => t.revealed && t.mine

/-- The counters after a full scan of the rows `rows`, started from `k`. -/
def Counters.after (k : Counters) (rows : Grid) : Counters :=
  { totalMines := k.totalMines + countTiles (fun t => t.mine) rows
    markedMines := k.markedMines + countTiles (fun t => t.mine && t.marked) rows
    markedTiles := k.markedTiles + countTiles (fun t => t.marked) rows
    correctlyRevealed := k.correctlyRevealed + countTiles (fun t => t.revealed && !t.mine) rows
    totalTiles := k.totalTiles + countTiles (fun _ => true) rows }

/-- Number of coordinates inside the matrix. -/
def cellCount (g : Grid) : Nat := (shape g).length * (shape g).headD 0

/-- `g'` is `g` with `revealed` set on some tiles that satisfy `ok`; nothing
else differs. -/
def RevealsWhere (ok : Tile → Bool) (g g' : Grid) : Prop :=
  shape g' = shape g ∧
  ∀ r c : Int, getTile g' r c = getTile g r c ∨
    ∃ t, getTile g r c = some t ∧ ok t = true ∧ getTile g' r c = some (setRevealed true t)

/-- The tiles a flood fill may reveal: neither a mine nor marked. -/
def floodable (t : Tile) : Bool := !t.mine && !t.marked

/-- The `revealed` flag at a coordinate (`false` outside the matrix). -/
def revAt (g : Grid) (r c : Int) : Bool :=
  match getTile g r c with
  | some t => t.revealed
  | none => false

/-- The grids have the same row lengths and the same `mine` and `marked` flags. -/
def SameSkel (g h : Grid) : Prop :=
  shape g = shape h ∧
  ∀ r c : Int, (getTile g r c).map (fun t => (t.mine, t.marked)) =
    (getTile h r c).map (fun t => (t.mine, t.marked))

/-- `g'` is `g` with `mine` set on some tiles that were not mines; nothing else
differs. -/
def MinesAdded (g g' : Grid) : Prop :=
  shape g' = shape g ∧
  ∀ r c : Int, getTile g' r c = getTile g r c ∨
    ∃ t, getTile g r c = some t ∧ t.mine = false ∧ getTile g' r c = some (setMine true t)

/-- The tiles a click may reveal: the unmarked ones. -/
def unmarked (t : Tile) : Bool := !t.marked

/-- A sequence of `guessTile` calls, each with its own arguments and its own
outcome of the shuffle: the final grid and the pairs returned, in order. -/
def guessMany : Grid → List (Int × Int × Bool × (Nat → Nat)) → Option (Grid × List Outcome)
  | g, [] => some (g, [])
  | g, (row, column, mark, rnd) :: rest =>
    match guessTile g row column mark rnd with
    | none => none
    | some (g1, out) =>
      match guessMany g1 rest with
      | none => none
      | some (g2, outs) => some (g2, out :: outs)

/-- The offsets `(dr, dc)` with `dr, dc ∈ {-1, 0, 1}`, in row-major order from
`(-1, -1)` to `(1, 1)`. -/
def rowMajorOffsets : List (Int × Int) :=
  [-1, 0, 1].flatMap fun (dr : Int) => [-1, 0, 1].map fun (dc : Int) => (dr, dc)

/-- The offset is not `(0, 0)`, leads from `(row, column)` to a coordinate inside an
`R × C` matrix, and is not diagonal when diagonals are not allowed. -/
def isNeighbourOffset (R C : Nat) (row column : Int) (allowDiagonals : Bool)
    (o : Int × Int) : Bool :=
  decide (o ≠ (0, 0)) &&
    decide (0 ≤ row + o.1 ∧ row + o.1 < R ∧ 0 ≤ column + o.2 ∧ column + o.2 < C) &&
    (allowDiagonals || decide (o.1 = 0 ∨ o.2 = 0))

/-- The tile at the coordinate exists and satisfies `p`. -/
def tileHas (g : Grid) (p : Tile → Bool) (q : Coord) : Bool :=
  match getTile g q.1 q.2 with
  | some t => p t
  | none => false

/-- The coordinate that the placing loop of `placeMines` pops first: the last
element of the shuffled list of free tiles (`none` when there is no free tile). -/
def firstPlaced (g : Grid) (rnd : Nat → Nat) : Option Coord :=
  match getGridSize g with
  | none => none
  | some (rows, cols) =>
    match filterCoords g (fun t => !t.mine && !thisRevealed) (scanOrder rows cols) with
    | none => none
    | some freeTiles => (shuffle rnd freeTiles).getLast?

/-- One more iteration in the result of an instrumented run. -/
def bump (r : Option (Grid × List Coord × Nat)) : Option (Grid × List Coord × Nat) :=
  r.map fun x => (x.1, x.2.1, x.2.2 + 1)

/-- The loop `while (toCheck.length) ...` of `revealSafeTilesFrom`, instrumented:
the same steps as `revealLoop`, returning besides the grid the final visited set
(the coordinates that got past `visited.has(key)`, latest first) and the number
of iterations performed. -/
def revealTrace : Nat → Grid → List Coord → List Coord → Option (Grid × List Coord × Nat)
  | _, g, [], visited => some (g, visited, 0)
  | 0, _, _ :: _, _ => none
  | fuel + 1, g, coords :: toCheck, visited =>
    if coords ∈ visited then bump (revealTrace fuel g toCheck visited)
    else
      match getTile g coords.1 coords.2 with
      | none => none
      | some tile =>
        if tile.mine then bump (revealTrace fuel g toCheck (coords :: visited))
        else if tile.marked then bump (revealTrace fuel g toCheck (coords :: visited))
        else
          let g1 := updTile g coords.1 coords.2 (setRevealed true)
          match getSurroundingMines g1 coords.1 coords.2 with
          | none => none
          | some nearbyMines =>
            if nearbyMines.length = 0 then
              match getSurroundingTiles g1 coords.1 coords.2 true with
              | none => none
              | some neighbours =>
                bump (revealTrace fuel g1 (neighbours.reverse ++ toCheck) (coords :: visited))
            else bump (revealTrace fuel g1 toCheck (coords :: visited))

/-- One iteration of the work-list loop, from the state with grid `g`, work list
`p :: rest` and visited set `vis` to the next state: `p` was visited before; or it
is visited now and is a mine or marked; or it is revealed and its neighbours are
pushed; or it is revealed and has a mine around it. -/
inductive LoopStep (g : Grid) (p : Coord) (rest vis : List Coord) :
    Grid → List Coord → List Coord → Prop
  | seen : p ∈ vis → LoopStep g p rest vis g rest vis
  | blocked (tile : Tile) : p ∉ vis → getTile g p.1 p.2 = some tile →
      floodable tile = false → LoopStep g p rest vis g rest (p :: vis)
  | expand (tile : Tile) (m nb : List Coord) : p ∉ vis → getTile g p.1 p.2 = some tile →
      floodable tile = true →
      getSurroundingMines (updTile g p.1 p.2 (setRevealed true)) p.1 p.2 = some m →
      m.length = 0 →
      getSurroundingTiles (updTile g p.1 p.2 (setRevealed true)) p.1 p.2 true = some nb →
      LoopStep g p rest vis (updTile g p.1 p.2 (setRevealed true)) (nb.reverse ++ rest) (p :: vis)
  | reveal (tile : Tile) (m : List Coord) : p ∉ vis → getTile g p.1 p.2 = some tile →
      floodable tile = true →
      getSurroundingMines (updTile g p.1 p.2 (setRevealed true)) p.1 p.2 = some m →
      m.length ≠ 0 →
      LoopStep g p rest vis (updTile g p.1 p.2 (setRevealed true)) rest (p :: vis)

/-- The neighbours of a coordinate, diagonals included. -/
def neighboursOf (g : Grid) (s : Coord) : List Coord :=
  match getSurroundingTiles g s.1 s.2 true with
  | some nb => nb
  | none => []

/-- Number of neighbours of `s` that are mines. -/
def minesAround (g : Grid) (s : Coord) : Nat :=
  (neighboursOf g s).countP (tileHas g fun t => t.mine)

/-- The least set `S` with (i) the start is in `S` if it is neither a mine nor
marked, and (ii) if `s` is in `S` and has zero surrounding mines, then every
neighbour of `s` that is neither a mine nor marked is in `S`. -/
inductive FloodSet (g : Grid) (start : Coord) : Coord → Prop
  | start : tileHas g floodable start = true → FloodSet g start start
  | step (s q : Coord) : FloodSet g start s → minesAround g s = 0 → q ∈ neighboursOf g s →
      tileHas g floodable q = true → FloodSet g start q

/-- The coordinate is the start or a neighbour of a member of the flood set that
has zero surrounding mines: the coordinates the flood fill may push. -/
def Pushed (g : Grid) (start q : Coord) : Prop :=
  q = start ∨ ∃ s, FloodSet g start s ∧ minesAround g s = 0 ∧ q ∈ neighboursOf g s

/-- What a run of the work-list loop from grid `g`, work list `st` and visited set
`vis` to grid `g'` and visited set `vis'` achieves, relative to a grid `g0` with
the same mines and marks. -/
structure FloodInv (g0 : Grid) (start : Coord) (g : Grid) (st vis : List Coord) (g' : Grid)
    (vis' : List Coord) : Prop where
  skel : SameSkel g0 g'
  visMono : ∀ q ∈ vis, q ∈ vis'
  stackVisited : ∀ q ∈ st, q ∈ vis'
  pushed : ∀ v ∈ vis', v ∉ vis → Pushed g0 start v
  closed : ∀ v ∈ vis', v ∉ vis → tileHas g0 floodable v = true →
    revAt g' v.1 v.2 = true ∧ (minesAround g0 v = 0 → ∀ q ∈ neighboursOf g0 v, q ∈ vis')
  sound : ∀ r c : Int, revAt g' r c = true →
    revAt g r c = true ∨ ((r, c) ∈ vis' ∧ (r, c) ∉ vis ∧ tileHas g0 floodable (r, c) = true)
  revMono : ∀ r c : Int, revAt g r c = true → revAt g' r c = true

/-! ## Shapes, bounds and single-cell updates -/

theorem getTile_nat (g : Grid) (i j : Nat) :
    getTile g (i : Int) (j : Int) = (g[i]?).bind (fun rw => rw[j]?) := by
  unfold getTile
  simp only [Int.toNat_ofNat, Int.natCast_nonneg, and_self, if_true]
  cases g[i]? <;> rfl

theorem getTile_eq_none_of_neg (g : Grid) (r c : Int) (h : ¬ (0 ≤ r ∧ 0 ≤ c)) :
    getTile g r c = none := by
  unfold getTile; simp [h]

theorem getTile_toNat (g : Grid) (r c : Int) (h : 0 ≤ r ∧ 0 ≤ c) :
    getTile g r c = (g[r.toNat]?).bind (fun rw => rw[c.toNat]?) := by
  unfold getTile
  simp only [h, and_self, if_true]
  cases g[r.toNat]? <;> rfl

theorem shape_updTile (g : Grid) (r c : Int) (f : Tile → Tile) :
    shape (updTile g r c f) = shape g := by
  unfold updTile
  cases hT : getTile g r c with
  | none => rfl
  | some t =>
    simp only [shape]
    by_cases h : 0 ≤ r ∧ 0 ≤ c
    · rw [getTile_toNat g r c h] at hT
      cases hrow : g[r.toNat]? with
      | none => simp [hrow] at hT
      | some rw =>
        have hlt : r.toNat < g.length := by
          rcases List.getElem?_eq_some.1 hrow with ⟨h1, _⟩; exact h1
        apply List.ext_getElem?
        intro n
        simp only [List.getElem?_map, List.getElem?_set]
        by_cases hn : r.toNat = n
        · subst hn
          simp [hlt, hrow, List.getD_eq_getElem?_getD]
        · simp [hn]
    · rw [getTile_eq_none_of_neg g r c h] at hT; cases hT

theorem getTile_updTile (g : Grid) (r c r' c' : Int) (f : Tile → Tile) :
    getTile (updTile g r c f) r' c' =
      if r = r' ∧ c = c' then (getTile g r c).map f else getTile g r' c' := by
  unfold updTile
  cases hT : getTile g r c with
  | none =>
    by_cases e : r = r' ∧ c = c'
    · obtain ⟨rfl, rfl⟩ := e; simp [hT]
    · simp [e]
  | some t =>
    by_cases h : 0 ≤ r ∧ 0 ≤ c
    · have hT2 := hT
      rw [getTile_toNat g r c h] at hT2
      cases hrow : g[r.toNat]? with
      | none => simp [hrow] at hT2
      | some rw =>
        simp only [hrow, Option.some_bind] at hT2
        have hlt : r.toNat < g.length := (List.getElem?_eq_some.1 hrow).1
        have hclt : c.toNat < rw.length := (List.getElem?_eq_some.1 hT2).1
        have hD : g.getD r.toNat [] = rw := by simp [List.getD_eq_getElem?_getD, hrow]
        rw [hD]
        by_cases h' : 0 ≤ r' ∧ 0 ≤ c'
        · rw [getTile_toNat _ r' c' h', getTile_toNat g r' c' h']
          simp only [List.getElem?_set]
          by_cases e1 : r.toNat = r'.toNat
          · have er : r = r' := by omega
            subst er
            simp only [true_and, if_true, hlt, hrow, Option.some_bind, List.getElem?_set]
            by_cases e2 : c.toNat = c'.toNat
            · have ec : c = c' := by omega
              subst ec
              simp [hclt]
            · have ec : ¬ c = c' := by omega
              simp [e2, ec]
          · have er : ¬ r = r' := by omega
            simp [e1, er]
        · rw [getTile_eq_none_of_neg _ r' c' h', getTile_eq_none_of_neg g r' c' h']
          have : ¬ (r = r' ∧ c = c') := by
            rintro ⟨rfl, rfl⟩; exact h' h
          simp [this]
    · rw [getTile_eq_none_of_neg g r c h] at hT; cases hT

theorem getTile_updTile_same (g : Grid) (r c : Int) (f : Tile → Tile) :
    getTile (updTile g r c f) r c = (getTile g r c).map f := by
  rw [getTile_updTile]; simp

theorem getTile_updTile_ne (g : Grid) (r c r' c' : Int) (f : Tile → Tile)
    (h : ¬ (r = r' ∧ c = c')) :
    getTile (updTile g r c f) r' c' = getTile g r' c' := by
  rw [getTile_updTile]; simp [h]

/-- Two grids with the same row lengths and the same tile at every coordinate are equal. -/
theorem grid_ext (g h : Grid) (hs : shape g = shape h)
    (ht : ∀ r c : Int, getTile g r c = getTile h r c) : g = h := by
  have hlen : g.length = h.length := by
    have := congrArg List.length hs; simpa [shape] using this
  apply List.ext_getElem hlen
  intro i h1 h2
  have hrl : (g[i]).length = (h[i]).length := by
    have := congrArg (fun l => l[i]?) hs
    simp only [shape, List.getElem?_map] at this
    rw [List.getElem?_eq_getElem h1, List.getElem?_eq_getElem h2] at this
    simpa using this
  apply List.ext_getElem hrl
  intro j h3 h4
  have := ht (i : Int) (j : Int)
  rw [getTile_nat, getTile_nat, List.getElem?_eq_getElem h1, List.getElem?_eq_getElem h2] at this
  simp only [Option.some_bind] at this
  rw [List.getElem?_eq_getElem h3, List.getElem?_eq_getElem h4] at this
  exact Option.some.inj this

theorem getGridSize_eq (g : Grid) (hne : shape g ≠ []) :
    getGridSize g = some ((shape g).length, (shape g).headD 0) := by
  cases g with
  | nil => exact absurd rfl hne
  | cons a l => simp [getGridSize, shape]

theorem shape_ne_nil_of_inBounds {g : Grid} {r c : Int} (h : InBounds g r c) :
    shape g ≠ [] := by
  intro e
  rcases h with ⟨h1, h2, _, _⟩
  rw [e] at h2
  simp at h2
  omega

/-- On a rectangular grid every in-bounds read succeeds. -/
theorem getTile_isSome {g : Grid} (hR : Rect g) {r c : Int} (h : InBounds g r c) :
    ∃ t, getTile g r c = some t := by
  rcases h with ⟨h1, h2, h3, h4⟩
  rw [getTile_toNat g r c ⟨h1, h3⟩]
  have hlt : r.toNat < g.length := by simp [shape] at h2; omega
  rw [List.getElem?_eq_getElem hlt]
  simp only [Option.some_bind]
  have hmem : (g[r.toNat]).length ∈ shape g := by
    simp only [shape, List.mem_map]
    exact ⟨g[r.toNat], List.getElem_mem _, rfl⟩
  have := hR _ hmem
  have hc : c.toNat < (g[r.toNat]).length := by omega
  exact ⟨_, List.getElem?_eq_getElem hc⟩

/-- A successful read is in bounds on a rectangular grid. -/
theorem inBounds_of_getTile {g : Grid} (hR : Rect g) {r c : Int} {t : Tile}
    (h : getTile g r c = some t) : InBounds g r c := by
  by_cases hn : 0 ≤ r ∧ 0 ≤ c
  · rw [getTile_toNat g r c hn] at h
    cases hrow : g[r.toNat]? with
    | none => simp [hrow] at h
    | some rw =>
      simp only [hrow, Option.some_bind] at h
      have hlt : r.toNat < g.length := (List.getElem?_eq_some.1 hrow).1
      have hclt : c.toNat < rw.length := (List.getElem?_eq_some.1 h).1
      have hmem : rw.length ∈ shape g := by
        simp only [shape, List.mem_map]
        obtain ⟨hh, he⟩ := List.getElem?_eq_some.1 hrow
        exact ⟨rw, he ▸ List.getElem_mem hh, rfl⟩
      have := hR _ hmem
      refine ⟨hn.1, ?_, hn.2, ?_⟩
      · simp [shape]; omega
      · omega
  · rw [getTile_eq_none_of_neg g r c hn] at h; cases h


/-! ## `checkWin` -/

theorem countTiles_nil (p : Tile → Bool) : countTiles p [] = 0 := rfl

theorem countTiles_cons (p : Tile → Bool) (row : List Tile) (g : Grid) :
    countTiles p (row :: g) = row.countP p + countTiles p g := by
  simp [countTiles]

theorem scanRow_eq (k : Counters) (row : List Tile) :
    scanRow k row =
      if row.any (fun t => t.revealed && t.mine) then Except.error (true, false)
      else Except.ok (k.after [row]) := by
  induction row generalizing k with
  | nil => simp [scanRow, Counters.after, countTiles]
  | cons t rest ih =>
    rcases k with ⟨a, b, c, d, e⟩
    rcases t with ⟨_ | _, _ | _, _ | _⟩ <;>
      simp [scanRow, scanTile, ih, Counters.after, countTiles, List.countP_cons] <;>
      (split <;> simp) <;> omega

theorem counters_after_cons (k : Counters) (row : List Tile) (g : Grid) :
    (k.after [row]).after g = k.after (row :: g) := by
  simp only [Counters.after, countTiles_cons, countTiles_nil, Nat.add_zero, Nat.add_assoc]

theorem scanGrid_eq (k : Counters) (g : Grid) :
    scanGrid k g =
      if hasRevealedMine g then Except.error (true, false) else Except.ok (k.after g) := by
  induction g generalizing k with
  | nil => simp [scanGrid, hasRevealedMine, Counters.after, countTiles]
  | cons row rest ih =>
    simp only [scanGrid, scanRow_eq]
    cases h : row.any (fun t => t.revealed && t.mine) with
    | true => simp [hasRevealedMine, h]
    | false =>
      simp only [Bool.false_eq_true, if_false, ih, counters_after_cons]
      simp only [hasRevealedMine, List.any_cons, h, Bool.false_or]

theorem checkWin_eq (g : Grid) :
    checkWin g =
      if hasRevealedMine g then (true, false)
      else if (countTiles (fun t => t.mine && t.marked) g = countTiles (fun t => t.mine) g ∧
            countTiles (fun t => t.marked) g = countTiles (fun t => t.mine) g) ∨
          (countTiles (fun t => t.revealed && !t.mine) g : Int) =
            (countTiles (fun _ => true) g : Int) - (countTiles (fun t => t.mine) g : Int)
        then (true, true) else (false, false) := by
  unfold checkWin
  rw [scanGrid_eq]
  cases h : hasRevealedMine g with
  | true => simp
  | false =>
    simp only [Bool.false_eq_true, if_false, Counters.after, Nat.zero_add]
    simp only [Bool.or_eq_true, Bool.and_eq_true, beq_iff_eq]

theorem hasRevealedMine_iff (g : Grid) :
    hasRevealedMine g = true ↔ ∃ row ∈ g, ∃ t ∈ row, t.revealed = true ∧ t.mine = true := by
  simp [hasRevealedMine]

/-! ## Neighbours -/

theorem getSurroundingTiles_eq (g : Grid) (hne : shape g ≠ []) (r c : Int) (d : Bool) :
    getSurroundingTiles g r c d =
      some (offsets.filterMap (neighbourAt (shape g).length ((shape g).headD 0) r c d)) := by
  unfold getSurroundingTiles
  rw [getGridSize_eq g hne]

theorem getSurroundingTiles_of_shape {g h : Grid} (hs : shape g = shape h) (r c : Int)
    (d : Bool) : getSurroundingTiles g r c d = getSurroundingTiles h r c d := by
  cases g with
  | nil =>
    cases h with
    | nil => rfl
    | cons a l => simp [shape] at hs
  | cons a l =>
    have h1 : shape (a :: l) ≠ [] := by simp [shape]
    have h2 : shape h ≠ [] := hs ▸ h1
    rw [getSurroundingTiles_eq _ h1, getSurroundingTiles_eq _ h2, hs]

theorem neighbourAt_inBounds {g : Grid} {r c : Int} {d : Bool} {o : Int × Int} {q : Coord}
    (h : neighbourAt (shape g).length ((shape g).headD 0) r c d o = some q) :
    InBounds g q.1 q.2 := by
  unfold neighbourAt at h
  split at h
  · cases h
  · split at h
    · cases h
    · simp only at h
      split at h
      · rename_i hb
        cases h
        exact ⟨hb.1, hb.2.1, hb.2.2.1, hb.2.2.2⟩
      · cases h

theorem mem_getSurroundingTiles_inBounds {g : Grid} {r c : Int} {d : Bool} {nb : List Coord}
    (h : getSurroundingTiles g r c d = some nb) : ∀ q ∈ nb, InBounds g q.1 q.2 := by
  intro q hq
  have hne : shape g ≠ [] := by
    intro e
    cases g with
    | nil => simp [getSurroundingTiles, getGridSize] at h
    | cons a l => simp [shape] at e
  rw [getSurroundingTiles_eq g hne] at h
  cases h
  rcases List.mem_filterMap.1 hq with ⟨o, _, ho⟩
  exact neighbourAt_inBounds ho

theorem length_getSurroundingTiles_le {g : Grid} {r c : Int} {d : Bool} {nb : List Coord}
    (h : getSurroundingTiles g r c d = some nb) : nb.length ≤ 8 := by
  unfold getSurroundingTiles at h
  cases hs : getGridSize g with
  | none => simp [hs] at h
  | some sz =>
    simp only [hs] at h
    cases h
    have e : offsets = [(-1, -1), (-1, 0), (-1, 1), (0, -1)] ++ (0, 0) ::
        [(0, 1), (1, -1), (1, 0), (1, 1)] := rfl
    have z : neighbourAt sz.1 sz.2 r c d (0, 0) = none := by simp [neighbourAt]
    rw [e, List.filterMap_append, List.filterMap_cons_none z, List.length_append]
    have a := List.length_filterMap_le (neighbourAt sz.1 sz.2 r c d)
      [(-1, -1), (-1, 0), (-1, 1), (0, -1)]
    have b := List.length_filterMap_le (neighbourAt sz.1 sz.2 r c d)
      [(0, 1), (1, -1), (1, 0), (1, 1)]
    simp only [List.length_cons, List.length_nil] at a b
    omega

/-! ## `filterCoords` -/

theorem filterCoords_isSome (g : Grid) (p : Tile → Bool) (l : List Coord)
    (h : ∀ q ∈ l, ∃ t, getTile g q.1 q.2 = some t) :
    ∃ kept, filterCoords g p l = some kept := by
  induction l with
  | nil => exact ⟨[], rfl⟩
  | cons q rest ih =>
    obtain ⟨t, ht⟩ := h q (List.mem_cons_self _ _)
    obtain ⟨kept, hk⟩ := ih (fun q' hq' => h q' (List.mem_cons_of_mem _ hq'))
    rcases q with ⟨r, c⟩
    simp only [filterCoords, ht, hk]
    exact ⟨_, rfl⟩

theorem filterCoords_congr (g h : Grid) (p : Tile → Bool) (l : List Coord)
    (e : ∀ r c : Int, (getTile g r c).map p = (getTile h r c).map p) :
    filterCoords g p l = filterCoords h p l := by
  induction l with
  | nil => rfl
  | cons q rest ih =>
    rcases q with ⟨r, c⟩
    have := e r c
    simp only [filterCoords, ih]
    cases hg : getTile g r c <;> cases hh : getTile h r c <;> simp [hg, hh] at this ⊢
    cases filterCoords h p rest <;> simp [this]

theorem mem_filterCoords {g : Grid} {p : Tile → Bool} {l kept : List Coord}
    (h : filterCoords g p l = some kept) (q : Coord) :
    q ∈ kept ↔ q ∈ l ∧ ∃ t, getTile g q.1 q.2 = some t ∧ p t = true := by
  induction l generalizing kept with
  | nil => simp [filterCoords] at h; subst h; simp
  | cons a rest ih =>
    rcases a with ⟨r, c⟩
    simp only [filterCoords] at h
    cases ht : getTile g r c with
    | none => simp [ht] at h
    | some t =>
      cases hk : filterCoords g p rest with
      | none => simp [ht, hk] at h
      | some k =>
        simp only [ht, hk, Option.some.injEq] at h
        have ih' := ih hk
        subst h
        by_cases hp : p t = true
        · simp only [hp, if_true, List.mem_cons, ih']
          constructor
          · rintro (rfl | ⟨h1, h2⟩)
            · exact ⟨Or.inl rfl, t, ht, hp⟩
            · exact ⟨Or.inr h1, h2⟩
          · rintro ⟨rfl | h1, h2⟩
            · exact Or.inl rfl
            · exact Or.inr ⟨h1, h2⟩
        · simp only [hp, Bool.false_eq_true, if_false, List.mem_cons, ih']
          constructor
          · rintro ⟨h1, h2⟩; exact ⟨Or.inr h1, h2⟩
          · rintro ⟨rfl | h1, t', h2, h3⟩
            · simp only [ht, Option.some.injEq] at h2; subst h2; exact absurd h3 hp
            · exact ⟨h1, t', h2, h3⟩

/-! ## Relations between grids -/

theorem Rect_of_shape {g h : Grid} (hs : shape h = shape g) (hR : Rect g) : Rect h := by
  unfold Rect at *; rw [hs]; exact hR

theorem InBounds_of_shape {g h : Grid} (hs : shape h = shape g) {r c : Int}
    (hB : InBounds g r c) : InBounds h r c := by
  unfold InBounds at *; rw [hs]; exact hB

theorem cellCount_of_shape {g h : Grid} (hs : shape h = shape g) : cellCount h = cellCount g := by
  unfold cellCount; rw [hs]

theorem revealsWhere_refl (ok : Tile → Bool) (g : Grid) : RevealsWhere ok g g :=
  ⟨rfl, fun _ _ => Or.inl rfl⟩

theorem setRevealed_idem (t : Tile) : setRevealed true (setRevealed true t) = setRevealed true t :=
  rfl

theorem revealsWhere_trans {ok : Tile → Bool} {g g' g'' : Grid}
    (h1 : RevealsWhere ok g g') (h2 : RevealsWhere ok g' g'') : RevealsWhere ok g g'' := by
  refine ⟨h2.1.trans h1.1, fun r c => ?_⟩
  rcases h1.2 r c with e1 | ⟨t, ht, hok, e1⟩
  · rcases h2.2 r c with e2 | ⟨t', ht', hok', e2⟩
    · exact Or.inl (e2.trans e1)
    · exact Or.inr ⟨t', e1 ▸ ht', hok', e2⟩
  · rcases h2.2 r c with e2 | ⟨t', ht', hok', e2⟩
    · exact Or.inr ⟨t, ht, hok, e2.trans e1⟩
    · refine Or.inr ⟨t, ht, hok, ?_⟩
      rw [e1] at ht'
      cases ht'
      rw [e2, setRevealed_idem]

theorem revealsWhere_upd {ok : Tile → Bool} {g : Grid} {r c : Int} {t : Tile}
    (ht : getTile g r c = some t) (hok : ok t = true) :
    RevealsWhere ok g (updTile g r c (setRevealed true)) := by
  refine ⟨shape_updTile g r c _, fun r' c' => ?_⟩
  by_cases e : r = r' ∧ c = c'
  · obtain ⟨rfl, rfl⟩ := e
    exact Or.inr ⟨t, ht, hok, by rw [getTile_updTile_same, ht]; rfl⟩
  · exact Or.inl (getTile_updTile_ne g r c r' c' _ e)

theorem revealsWhere_mono {ok ok' : Tile → Bool} (hok : ∀ t, ok t = true → ok' t = true)
    {g g' : Grid} (h : RevealsWhere ok g g') : RevealsWhere ok' g g' := by
  refine ⟨h.1, fun r c => ?_⟩
  rcases h.2 r c with e | ⟨t, ht, h1, e⟩
  · exact Or.inl e
  · exact Or.inr ⟨t, ht, hok t h1, e⟩

/-! ## Counting the coordinates of the matrix -/

theorem mem_scanOrder (R C : Nat) (q : Coord) :
    q ∈ scanOrder R C ↔ 0 ≤ q.1 ∧ q.1 < R ∧ 0 ≤ q.2 ∧ q.2 < C := by
  rcases q with ⟨r, c⟩
  simp only [scanOrder, List.mem_flatMap, List.mem_map, List.mem_range, Prod.mk.injEq]
  constructor
  · rintro ⟨i, hi, j, hj, rfl, rfl⟩
    omega
  · rintro ⟨h1, h2, h3, h4⟩
    exact ⟨r.toNat, by omega, c.toNat, by omega, by omega, by omega⟩

theorem length_scanOrder (R C : Nat) : (scanOrder R C).length = R * C := by
  have h : ∀ n : Nat, ((List.range n).map (List.length ∘ fun (r : Nat) =>
      (List.range C).map fun (c : Nat) => ((r : Int), (c : Int)))).sum = n * C := by
    intro n
    induction n with
    | zero => simp
    | succ n ih => simp [List.range_succ, ih, Nat.succ_mul]
  simp only [scanOrder, List.length_flatMap]
  exact h R

theorem length_le_cellCount {g : Grid} {l : List Coord} (hnd : l.Nodup)
    (hB : ∀ q ∈ l, InBounds g q.1 q.2) : l.length ≤ cellCount g := by
  have hsub : l ⊆ scanOrder (shape g).length ((shape g).headD 0) := by
    intro q hq
    exact (mem_scanOrder _ _ q).2 (hB q hq)
  have := (List.subperm_of_subset hnd hsub).length_le
  rwa [length_scanOrder] at this

/-! ## The work-list loop of `revealSafeTilesFrom` -/

theorem getSurroundingMines_isSome {g : Grid} (hR : Rect g) (r c : Int) (hne : shape g ≠ []) :
    ∃ m, getSurroundingMines g r c = some m := by
  unfold getSurroundingMines
  rw [getSurroundingTiles_eq g hne]
  simp only
  apply filterCoords_isSome
  intro q hq
  rcases List.mem_filterMap.1 hq with ⟨o, _, ho⟩
  exact getTile_isSome hR (neighbourAt_inBounds ho)

/-- Termination and effect of the work-list loop: on a rectangular grid, with
in-bounds work list and visited set, fuel `|toCheck| + 8 * (cells - |visited|)`
is enough, and the loop only sets `revealed` on tiles that are neither mines nor
marked. -/
theorem revealLoop_spec : ∀ (fuel : Nat) (g : Grid) (st vis : List Coord), Rect g →
    (∀ q ∈ st, InBounds g q.1 q.2) → (∀ q ∈ vis, InBounds g q.1 q.2) → vis.Nodup →
    st.length + 8 * (cellCount g - vis.length) ≤ fuel →
    ∃ g', revealLoop fuel g st vis = some g' ∧ RevealsWhere floodable g g' := by
  intro fuel
  induction fuel with
  | zero =>
    intro g st vis _ _ _ _ hf
    cases st with
    | nil => exact ⟨g, rfl, revealsWhere_refl _ g⟩
    | cons p rest => simp at hf
  | succ fuel ih =>
    intro g st vis hR hst hvis hnd hf
    cases st with
    | nil => exact ⟨g, rfl, revealsWhere_refl _ g⟩
    | cons p rest =>
      have hrest : ∀ q ∈ rest, InBounds g q.1 q.2 := fun q hq => hst q (List.mem_cons_of_mem _ hq)
      have hp : InBounds g p.1 p.2 := hst p (List.mem_cons_self _ _)
      simp only [List.length_cons] at hf
      rw [revealLoop]
      by_cases hv : p ∈ vis
      · simp only [hv, if_true]
        exact ih g rest vis hR hrest hvis hnd (by omega)
      · simp only [hv, if_false]
        obtain ⟨tile, ht⟩ := getTile_isSome hR hp
        have hnd' : (p :: vis).Nodup := List.nodup_cons.2 ⟨hv, hnd⟩
        have hvis' : ∀ q ∈ p :: vis, InBounds g q.1 q.2 := by
          intro q hq
          rcases List.mem_cons.1 hq with rfl | hq
          · exact hp
          · exact hvis q hq
        have hcnt := length_le_cellCount hnd' hvis'
        simp only [List.length_cons] at hcnt
        simp only [ht]
        by_cases hm : tile.mine = true
        · simp only [hm, if_true]
          exact ih g rest (p :: vis) hR hrest hvis' hnd' (by simp only [List.length_cons]; omega)
        · simp only [hm, if_false]
          by_cases hk : tile.marked = true
          · simp only [hk, if_true]
            exact ih g rest (p :: vis) hR hrest hvis' hnd' (by simp only [List.length_cons]; omega)
          · simp only [hk, if_false]
            have hs1 := shape_updTile g p.1 p.2 (setRevealed true)
            have hR1 : Rect (updTile g p.1 p.2 (setRevealed true)) := Rect_of_shape hs1 hR
            have hne1 : shape (updTile g p.1 p.2 (setRevealed true)) ≠ [] :=
              shape_ne_nil_of_inBounds (InBounds_of_shape hs1 hp)
            have hc1 := cellCount_of_shape hs1
            have hok : floodable tile = true := by simp [floodable, hm, hk]
            have hstep : RevealsWhere floodable g (updTile g p.1 p.2 (setRevealed true)) :=
              revealsWhere_upd ht hok
            obtain ⟨m, hm1⟩ := getSurroundingMines_isSome hR1 p.1 p.2 hne1
            simp only [hm1]
            by_cases hz : m.length = 0
            · simp only [hz, if_true]
              cases hn : getSurroundingTiles (updTile g p.1 p.2 (setRevealed true)) p.1 p.2 true with
              | none => rw [getSurroundingTiles_eq _ hne1] at hn; cases hn
              | some nb =>
                simp only
                have hnbB := mem_getSurroundingTiles_inBounds hn
                have hnbL := length_getSurroundingTiles_le hn
                obtain ⟨g', hg', hrel⟩ := ih (updTile g p.1 p.2 (setRevealed true))
                  (nb.reverse ++ rest) (p :: vis) hR1
                  (by
                    intro q hq
                    rcases List.mem_append.1 hq with hq | hq
                    · exact hnbB q (List.mem_reverse.1 hq)
                    · exact InBounds_of_shape hs1 (hrest q hq))
                  (fun q hq => InBounds_of_shape hs1 (hvis' q hq)) hnd'
                  (by
                    simp only [List.length_append, List.length_reverse, List.length_cons, hc1]
                    omega)
                exact ⟨g', hg', revealsWhere_trans hstep hrel⟩
            · simp only [hz, if_false]
              obtain ⟨g', hg', hrel⟩ := ih (updTile g p.1 p.2 (setRevealed true))
                rest (p :: vis) hR1
                (fun q hq => InBounds_of_shape hs1 (hrest q hq))
                (fun q hq => InBounds_of_shape hs1 (hvis' q hq)) hnd'
                (by simp only [List.length_cons, hc1]; omega)
              exact ⟨g', hg', revealsWhere_trans hstep hrel⟩

/-- More fuel does not change the result of the work-list loop. -/
theorem revealLoop_fuel_mono : ∀ (fuel : Nat) (g : Grid) (st vis : List Coord) (g' : Grid),
    revealLoop fuel g st vis = some g' → ∀ extra, revealLoop (fuel + extra) g st vis = some g' := by
  intro fuel
  induction fuel with
  | zero =>
    intro g st vis g' h extra
    cases st with
    | nil =>
      cases extra <;> simpa [revealLoop] using h
    | cons p rest => simp [revealLoop] at h
  | succ fuel ih =>
    intro g st vis g' h extra
    cases st with
    | nil => simpa [revealLoop] using h
    | cons p rest =>
      have e : fuel + 1 + extra = (fuel + extra) + 1 := by omega
      rw [e]
      rw [revealLoop] at h ⊢
      by_cases hv : p ∈ vis
      · simp only [hv, if_true] at h ⊢
        exact ih _ _ _ _ h extra
      · simp only [hv, if_false] at h ⊢
        cases ht : getTile g p.1 p.2 with
        | none => simp [ht] at h
        | some tile =>
          simp only [ht] at h ⊢
          by_cases hm : tile.mine = true
          · simp only [hm, if_true] at h ⊢
            exact ih _ _ _ _ h extra
          · simp only [hm, if_false] at h ⊢
            by_cases hk : tile.marked = true
            · simp only [hk, if_true] at h ⊢
              exact ih _ _ _ _ h extra
            · simp only [hk, if_false] at h ⊢
              cases hmn : getSurroundingMines (updTile g p.1 p.2 (setRevealed true)) p.1 p.2 with
              | none => simp [hmn] at h
              | some m =>
                simp only [hmn] at h ⊢
                by_cases hz : m.length = 0
                · simp only [hz, if_true] at h ⊢
                  cases hnb : getSurroundingTiles (updTile g p.1 p.2 (setRevealed true))
                      p.1 p.2 true with
                  | none => simp [hnb] at h
                  | some nb =>
                    simp only [hnb] at h ⊢
                    exact ih _ _ _ _ h extra
                · simp only [hz, if_false] at h ⊢
                  exact ih _ _ _ _ h extra

/-- On a rectangular grid and an in-bounds start `revealSafeTilesFrom` returns,
and it only sets `revealed` on tiles that are neither mines nor marked. -/
theorem revealSafeTilesFrom_spec {g : Grid} (hR : Rect g) {r c : Int} (hB : InBounds g r c) :
    ∃ g', revealSafeTilesFrom g r c = some g' ∧ RevealsWhere floodable g g' := by
  unfold revealSafeTilesFrom
  apply revealLoop_spec _ g [(r, c)] [] hR
  · intro q hq
    simp only [List.mem_singleton] at hq
    subst hq
    exact hB
  · intro q hq; cases hq
  · exact List.nodup_nil
  · have e : cellCount g = g.length * (g.headD []).length := by
      cases g <;> simp [cellCount, shape]
    simp only [revealFuel, List.length_singleton, List.length_nil, e]
    omega

/-! ## Two runs of the flood fill on grids with the same mines and marks -/

theorem sameSkel_of_revealsWhere {ok : Tile → Bool} {g g' : Grid} (h : RevealsWhere ok g g') :
    SameSkel g g' := by
  refine ⟨h.1.symm, fun r c => ?_⟩
  rcases h.2 r c with e | ⟨t, ht, _, e⟩
  · rw [e]
  · rw [e, ht]; rfl

theorem sameSkel_upd {g h : Grid} (hs : SameSkel g h) (r c : Int) :
    SameSkel (updTile g r c (setRevealed true)) (updTile h r c (setRevealed true)) := by
  refine ⟨by rw [shape_updTile, shape_updTile]; exact hs.1, fun r' c' => ?_⟩
  rw [getTile_updTile, getTile_updTile]
  by_cases e : r = r' ∧ c = c'
  · simp only [e, and_self, if_true]
    obtain ⟨rfl, rfl⟩ := e
    have := hs.2 r c
    cases hg : getTile g r c <;> cases hh : getTile h r c <;> simp [hg, hh, setRevealed] at this ⊢
    exact this
  · simp only [e, if_false]
    exact hs.2 r' c'

theorem sameSkel_getSurroundingMines {g h : Grid} (hs : SameSkel g h) (r c : Int) :
    getSurroundingMines g r c = getSurroundingMines h r c := by
  unfold getSurroundingMines
  rw [getSurroundingTiles_of_shape hs.1]
  cases getSurroundingTiles h r c true with
  | none => rfl
  | some tiles =>
    simp only
    apply filterCoords_congr
    intro r' c'
    have := hs.2 r' c'
    cases hg : getTile g r' c' <;> cases hh : getTile h r' c' <;> simp [hg, hh] at this ⊢
    exact this.1

theorem revAt_updTile {g : Grid} {r c : Int} {t : Tile} (ht : getTile g r c = some t)
    (r' c' : Int) :
    revAt (updTile g r c (setRevealed true)) r' c' =
      (revAt g r' c' || decide (r = r' ∧ c = c')) := by
  unfold revAt
  rw [getTile_updTile]
  by_cases e : r = r' ∧ c = c'
  · obtain ⟨rfl, rfl⟩ := e
    simp [ht, setRevealed]
  · simp [e]

/-- Two runs of the work-list loop from the same work list and visited set, on
grids with the same mines and marks, take the same steps: they reveal the same
set `X` of coordinates. -/
theorem revealLoop_lockstep : ∀ (fuel : Nat) (g h : Grid) (st vis : List Coord) (g' : Grid),
    SameSkel g h → revealLoop fuel g st vis = some g' →
    ∃ (h' : Grid) (X : Int → Int → Bool), revealLoop fuel h st vis = some h' ∧
      SameSkel g' h' ∧ (∀ r c, revAt g' r c = (revAt g r c || X r c)) ∧
      (∀ r c, revAt h' r c = (revAt h r c || X r c)) := by
  intro fuel
  induction fuel with
  | zero =>
    intro g h st vis g' hs hrun
    cases st with
    | nil =>
      simp only [revealLoop, Option.some.injEq] at hrun
      subst hrun
      exact ⟨h, fun _ _ => false, rfl, hs, by simp, by simp⟩
    | cons p rest => simp [revealLoop] at hrun
  | succ fuel ih =>
    intro g h st vis g' hs hrun
    cases st with
    | nil =>
      simp only [revealLoop, Option.some.injEq] at hrun
      subst hrun
      exact ⟨h, fun _ _ => false, rfl, hs, by simp, by simp⟩
    | cons p rest =>
      rw [revealLoop] at hrun ⊢
      by_cases hv : p ∈ vis
      · simp only [hv, if_true] at hrun ⊢
        exact ih g h rest vis g' hs hrun
      · simp only [hv, if_false] at hrun ⊢
        cases hg : getTile g p.1 p.2 with
        | none => simp [hg] at hrun
        | some tg =>
          have hskel := hs.2 p.1 p.2
          cases hh : getTile h p.1 p.2 with
          | none => simp [hg, hh] at hskel
          | some th =>
            simp only [hg, hh, Option.map_some', Option.some.injEq, Prod.mk.injEq] at hskel
            simp only [hg] at hrun
            simp only [← hskel.1, ← hskel.2]
            by_cases hm : tg.mine = true
            · simp only [hm, if_true] at hrun ⊢
              exact ih g h rest (p :: vis) g' hs hrun
            · simp only [hm, if_false] at hrun ⊢
              by_cases hk : tg.marked = true
              · simp only [hk, if_true] at hrun ⊢
                exact ih g h rest (p :: vis) g' hs hrun
              · simp only [hk, if_false] at hrun ⊢
                have hs1 := sameSkel_upd hs p.1 p.2
                rw [← sameSkel_getSurroundingMines hs1, ← getSurroundingTiles_of_shape hs1.1]
                have key : ∀ (st' : List Coord),
                    revealLoop fuel (updTile g p.1 p.2 (setRevealed true)) st' (p :: vis)
                      = some g' →
                    ∃ (h' : Grid) (X : Int → Int → Bool),
                      revealLoop fuel (updTile h p.1 p.2 (setRevealed true)) st' (p :: vis)
                        = some h' ∧
                      SameSkel g' h' ∧ (∀ r c, revAt g' r c = (revAt g r c || X r c)) ∧
                      (∀ r c, revAt h' r c = (revAt h r c || X r c)) := by
                  intro st' hrun'
                  obtain ⟨h', X, e1, e2, e3, e4⟩ := ih _ _ st' (p :: vis) g' hs1 hrun'
                  refine ⟨h', fun r c => decide (p.1 = r ∧ p.2 = c) || X r c, e1, e2, ?_, ?_⟩
                  · intro r c
                    rw [e3, revAt_updTile hg, Bool.or_assoc]
                  · intro r c
                    rw [e4, revAt_updTile hh, Bool.or_assoc]
                cases hmn : getSurroundingMines (updTile g p.1 p.2 (setRevealed true)) p.1 p.2 with
                | none => simp [hmn] at hrun
                | some m =>
                  simp only [hmn] at hrun ⊢
                  by_cases hz : m.length = 0
                  · simp only [hz, if_true] at hrun ⊢
                    cases hnb : getSurroundingTiles (updTile g p.1 p.2 (setRevealed true))
                        p.1 p.2 true with
                    | none => simp [hnb] at hrun
                    | some nb =>
                      simp only [hnb] at hrun ⊢
                      exact key _ hrun
                  · simp only [hz, if_false] at hrun ⊢
                    exact key _ hrun

/-! ## `generateGrid` -/

theorem generateRow_eq (n : Nat) :
    generateRow n = List.replicate n { mine := false, revealed := false, marked := false } := by
  induction n with
  | zero => rfl
  | succ n ih => rw [generateRow, ih, List.replicate_succ']

theorem generateRows_eq (columns : Int) (n : Nat) :
    generateRows columns n = List.replicate n (generateRow columns.toNat) := by
  induction n with
  | zero => rfl
  | succ n ih => rw [generateRows, ih, List.replicate_succ']

theorem countTiles_replicate (p : Tile → Bool) (n : Nat) (row : List Tile) :
    countTiles p (List.replicate n row) = n * row.countP p := by
  induction n with
  | zero => simp [countTiles]
  | succ n ih => rw [List.replicate_succ, countTiles_cons, ih, Nat.succ_mul, Nat.add_comm]

theorem revealFuel_eq (g : Grid) : revealFuel g = 8 * cellCount g + 1 := by
  cases g <;> simp [revealFuel, cellCount, shape]

theorem getTile_eq_of_skel_rev {a b : Grid} {r c : Int}
    (hs : (getTile a r c).map (fun t => (t.mine, t.marked)) =
      (getTile b r c).map (fun t => (t.mine, t.marked)))
    (hr : revAt a r c = revAt b r c) : getTile a r c = getTile b r c := by
  unfold revAt at hr
  cases ha : getTile a r c with
  | none => cases hb : getTile b r c <;> simp [ha, hb] at hs ⊢
  | some ta =>
    cases hb : getTile b r c with
    | none => simp [ha, hb] at hs
    | some tb =>
      simp only [ha, hb, Option.map_some', Option.some.injEq, Prod.mk.injEq] at hs hr
      rcases ta with ⟨m1, r1, k1⟩
      rcases tb with ⟨m2, r2, k2⟩
      simp only at hs hr
      simp [hs.1, hs.2, hr]

/-! ## Tiles of the rows and tiles at coordinates -/

theorem exists_getTile_iff_mem (g : Grid) (P : Tile → Prop) :
    (∃ (r c : Int) (t : Tile), getTile g r c = some t ∧ P t) ↔ ∃ row ∈ g, ∃ t ∈ row, P t := by
  constructor
  · rintro ⟨r, c, t, ht, hP⟩
    by_cases hn : 0 ≤ r ∧ 0 ≤ c
    · rw [getTile_toNat g r c hn] at ht
      cases hrow : g[r.toNat]? with
      | none => simp [hrow] at ht
      | some rw =>
        simp only [hrow, Option.some_bind] at ht
        obtain ⟨h1, e1⟩ := List.getElem?_eq_some.1 hrow
        obtain ⟨h2, e2⟩ := List.getElem?_eq_some.1 ht
        exact ⟨rw, e1 ▸ List.getElem_mem h1, t, e2 ▸ List.getElem_mem h2, hP⟩
    · rw [getTile_eq_none_of_neg g r c hn] at ht; cases ht
  · rintro ⟨row, hrow, t, ht, hP⟩
    obtain ⟨i, hi, ei⟩ := List.getElem_of_mem hrow
    obtain ⟨j, hj, ej⟩ := List.getElem_of_mem ht
    refine ⟨(i : Int), (j : Int), t, ?_, hP⟩
    rw [getTile_nat, List.getElem?_eq_getElem hi]
    simp only [Option.some_bind]
    subst ei
    rw [List.getElem?_eq_getElem hj, ej]

theorem hasRevealedMine_iff_getTile (g : Grid) :
    hasRevealedMine g = true ↔
      ∃ (r c : Int) (t : Tile), getTile g r c = some t ∧ (t.revealed = true ∧ t.mine = true) := by
  rw [hasRevealedMine_iff, exists_getTile_iff_mem]

theorem isGridEmpty_eq_false_iff (g : Grid) :
    isGridEmpty g = false ↔
      ∃ (r c : Int) (t : Tile), getTile g r c = some t ∧ t.revealed = true := by
  rw [exists_getTile_iff_mem]
  simp [isGridEmpty]

theorem checkWin_of_revealed_mine {g : Grid} {r c : Int} {t : Tile}
    (ht : getTile g r c = some t) (h1 : t.revealed = true) (h2 : t.mine = true) :
    checkWin g = (true, false) := by
  rw [checkWin_eq, (hasRevealedMine_iff_getTile g).2 ⟨r, c, t, ht, h1, h2⟩]
  rfl

/-! ## The shuffle -/

theorem countP_set_set (p : Coord → Bool) (l : List Coord) (i j : Nat) (a b : Coord)
    (hi : i < l.length) (hj : j < l.length) (ea : l[i] = a) (eb : l[j] = b) :
    List.countP p ((l.set i b).set j a) = List.countP p l := by
  have hj2 : j < (l.set i b).length := by simpa using hj
  have e1 : (l.set i b)[j] = b := by
    rw [List.getElem_set]
    split
    · rfl
    · exact eb
  rw [List.countP_set _ _ _ _ hj2, List.countP_set _ _ _ _ hi, e1, ea]
  have hle := List.boole_getElem_le_countP p l i hi
  rw [ea] at hle
  revert hle
  generalize List.countP p l = n
  cases p a <;> cases p b <;> simp <;> omega

theorem swapAt_perm (l : List Coord) (i j : Nat) : (swapAt l i j).Perm l := by
  unfold swapAt
  cases hi : l[i]? with
  | none => exact List.Perm.refl l
  | some a =>
    cases hj : l[j]? with
    | none => exact List.Perm.refl l
    | some b =>
      simp only
      obtain ⟨hi', ea⟩ := List.getElem?_eq_some.1 hi
      obtain ⟨hj', eb⟩ := List.getElem?_eq_some.1 hj
      rw [List.perm_iff_count]
      intro x
      simp only [List.count_eq_countP]
      exact countP_set_set _ l i j a b hi' hj' ea eb

theorem shuffleFrom_perm (rnd : Nat → Nat) (n : Nat) (l : List Coord) :
    (shuffleFrom rnd n l).Perm l := by
  induction n generalizing l with
  | zero => exact List.Perm.refl l
  | succ n ih => exact (ih _).trans (swapAt_perm l _ _)

theorem shuffle_perm (rnd : Nat → Nat) (l : List Coord) : (shuffle rnd l).Perm l :=
  shuffleFrom_perm rnd _ l

/-! ## Counting tiles under single-cell updates -/

theorem sum_map_set (F : List Tile → Nat) (g : Grid) (i : Nat) (row' : List Tile)
    (hi : i < g.length) :
    ((g.set i row').map F).sum + F g[i] = (g.map F).sum + F row' := by
  induction g generalizing i with
  | nil => simp at hi
  | cons a rest ih =>
    cases i with
    | zero => simp; omega
    | succ i =>
      simp only [List.length_cons, Nat.add_lt_add_iff_right] at hi
      have := ih i hi
      simp only [List.set_cons_succ, List.map_cons, List.sum_cons, List.getElem_cons_succ]
      omega

theorem countTiles_updTile (p : Tile → Bool) {g : Grid} {r c : Int} {t : Tile}
    (ht : getTile g r c = some t) (f : Tile → Tile) :
    countTiles p (updTile g r c f) + (if p t then 1 else 0) =
      countTiles p g + (if p (f t) then 1 else 0) := by
  unfold updTile
  simp only [ht]
  by_cases hn : 0 ≤ r ∧ 0 ≤ c
  · rw [getTile_toNat g r c hn] at ht
    cases hrow : g[r.toNat]? with
    | none => simp [hrow] at ht
    | some rw =>
      simp only [hrow, Option.some_bind] at ht
      obtain ⟨h1, e1⟩ := List.getElem?_eq_some.1 hrow
      obtain ⟨h2, e2⟩ := List.getElem?_eq_some.1 ht
      have hD : g.getD r.toNat [] = rw := by simp [List.getD_eq_getElem?_getD, hrow]
      rw [hD]
      have hs := sum_map_set (List.countP p) g r.toNat (rw.set c.toNat (f t)) h1
      rw [e1, List.countP_set p rw c.toNat (f t) h2, e2] at hs
      have hb := List.boole_getElem_le_countP p rw c.toNat h2
      rw [e2] at hb
      simp only [countTiles]
      omega
  · rw [getTile_eq_none_of_neg g r c hn] at ht; cases ht

theorem countTiles_true (g : Grid) : countTiles (fun _ => true) g = (shape g).sum := by
  simp [countTiles, shape]

theorem countTiles_mine_add (g : Grid) :
    countTiles (fun t => t.mine) g + countTiles (fun t => !t.mine) g =
      countTiles (fun _ => true) g := by
  induction g with
  | nil => rfl
  | cons row rest ih =>
    simp only [countTiles_cons]
    have : row.countP (fun t => t.mine) + row.countP (fun t => !t.mine) =
        row.countP (fun _ => true) := by
      induction row with
      | nil => rfl
      | cons t tl ih2 =>
        simp only [List.countP_cons]
        cases t.mine <;> simp <;> simp at ih2 <;> omega
    omega

theorem countTiles_eq_zero (p : Tile → Bool) (g : Grid)
    (h : ∀ row ∈ g, ∀ t ∈ row, p t = false) : countTiles p g = 0 := by
  induction g with
  | nil => rfl
  | cons row rest ih =>
    rw [countTiles_cons, ih (fun r hr => h r (List.mem_cons_of_mem _ hr))]
    have : row.countP p = 0 := by
      rw [List.countP_eq_zero]
      intro t ht
      simp [h row (List.mem_cons_self _ _) t ht]
    omega

/-! ## `placeMines` -/

theorem minesAdded_refl (g : Grid) : MinesAdded g g :=
  ⟨rfl, fun _ _ => Or.inl rfl⟩

theorem minesAdded_trans {g g' g'' : Grid} (h1 : MinesAdded g g') (h2 : MinesAdded g' g'') :
    MinesAdded g g'' := by
  refine ⟨h2.1.trans h1.1, fun r c => ?_⟩
  rcases h1.2 r c with e1 | ⟨t, ht, hok, e1⟩
  · rcases h2.2 r c with e2 | ⟨t', ht', hok', e2⟩
    · exact Or.inl (e2.trans e1)
    · exact Or.inr ⟨t', e1 ▸ ht', hok', e2⟩
  · rcases h2.2 r c with e2 | ⟨t', ht', hok', e2⟩
    · exact Or.inr ⟨t, ht, hok, e2.trans e1⟩
    · rw [e1] at ht'
      cases ht'
      simp [setMine] at hok'

theorem minesAdded_upd {g : Grid} {r c : Int} {t : Tile}
    (ht : getTile g r c = some t) (hm : t.mine = false) :
    MinesAdded g (updTile g r c (setMine true)) := by
  refine ⟨shape_updTile g r c _, fun r' c' => ?_⟩
  by_cases e : r = r' ∧ c = c'
  · obtain ⟨rfl, rfl⟩ := e
    exact Or.inr ⟨t, ht, hm, by rw [getTile_updTile_same, ht]; rfl⟩
  · exact Or.inl (getTile_updTile_ne g r c r' c' _ e)

/-- Under `MinesAdded` every tile keeps its `revealed` and `marked` flags and a
mine stays a mine. -/
theorem minesAdded_tile {g g' : Grid} (h : MinesAdded g g') {r c : Int} {t : Tile}
    (ht : getTile g r c = some t) :
    ∃ t', getTile g' r c = some t' ∧ t'.revealed = t.revealed ∧ t'.marked = t.marked ∧
      (t.mine = true → t'.mine = true) := by
  rcases h.2 r c with e | ⟨t0, ht0, _, e⟩
  · exact ⟨t, e.trans ht, rfl, rfl, id⟩
  · rw [ht] at ht0
    cases ht0
    exact ⟨setMine true t, e, rfl, rfl, fun _ => rfl⟩

theorem filterCoords_sublist {g : Grid} {p : Tile → Bool} {l kept : List Coord}
    (h : filterCoords g p l = some kept) : kept.Sublist l := by
  induction l generalizing kept with
  | nil => simp [filterCoords] at h; subst h; exact List.Sublist.refl _
  | cons a rest ih =>
    rcases a with ⟨r, c⟩
    simp only [filterCoords] at h
    cases ht : getTile g r c with
    | none => simp [ht] at h
    | some t =>
      cases hk : filterCoords g p rest with
      | none => simp [ht, hk] at h
      | some k =>
        simp only [ht, hk, Option.some.injEq] at h
        subst h
        split
        · exact (ih hk).cons₂ _
        · exact (ih hk).cons _

theorem nodup_scanOrder (R C : Nat) : (scanOrder R C).Nodup := by
  unfold scanOrder
  rw [List.nodup_flatMap]
  constructor
  · intro r _
    apply List.Nodup.map _ (List.nodup_range C)
    intro a b h
    simpa using h
  · apply List.Pairwise.imp _ (List.nodup_range R)
    intro a b hab
    simp only [Function.onFun, List.disjoint_left, List.mem_map, not_exists, not_and]
    rintro q ⟨i, _, rfl⟩ j _ h
    simp only [Prod.mk.injEq, Nat.cast_inj] at h
    exact hab h.1.symm

/-- Effect of the placing loop on a duplicate-free list of coordinates of
non-mine tiles: it succeeds, only adds mines, adds exactly `min todo |list|` of
them, and mines every listed tile when `todo` covers the list. -/
theorem placeLoop_spec : ∀ (todo : Nat) (g : Grid) (l : List Coord), l.Nodup →
    (∀ q ∈ l, ∃ t, getTile g q.1 q.2 = some t ∧ t.mine = false) →
    ∃ g', placeLoop todo g l = some g' ∧ MinesAdded g g' ∧
      countTiles (fun t => t.mine) g' = countTiles (fun t => t.mine) g + min todo l.length ∧
      (l.length ≤ todo → ∀ q ∈ l, ∃ t, getTile g' q.1 q.2 = some t ∧ t.mine = true) := by
  intro todo
  induction todo with
  | zero =>
    intro g l _ _
    refine ⟨g, rfl, minesAdded_refl g, by simp, ?_⟩
    intro hl q hq
    have : l = [] := List.length_eq_zero.1 (Nat.le_zero.1 hl)
    subst this
    cases hq
  | succ k ih =>
    intro g l hnd hfree
    rw [placeLoop]
    cases hlast : l.getLast? with
    | none =>
      have : l = [] := List.getLast?_eq_none_iff.1 hlast
      subst this
      refine ⟨g, rfl, minesAdded_refl g, by simp, ?_⟩
      intro _ q hq
      cases hq
    | some q =>
      have hl : l.dropLast ++ [q] = l := List.dropLast_append_getLast? q hlast
      have hq : q ∈ l := by rw [← hl]; simp
      obtain ⟨t, ht, hm⟩ := hfree q hq
      have hnd2 : (l.dropLast ++ [q]).Nodup := by rw [hl]; exact hnd
      have hnd' : l.dropLast.Nodup := hnd2.of_append_left
      have hnot : q ∉ l.dropLast := by
        intro hmem
        have := (List.nodup_append.1 hnd2).2.2
        exact this hmem (List.mem_singleton_self q) 
      have hfree' : ∀ q' ∈ l.dropLast, ∃ t', getTile (updTile g q.1 q.2 (setMine true)) q'.1 q'.2
          = some t' ∧ t'.mine = false := by
        intro q' hq'
        have hne : ¬ (q.1 = q'.1 ∧ q.2 = q'.2) := by
          rintro ⟨h1, h2⟩
          exact hnot ((Prod.ext h1 h2 : q = q') ▸ hq')
        rw [getTile_updTile_ne _ _ _ _ _ _ hne]
        exact hfree q' (by rw [← hl]; exact List.mem_append_left _ hq')
      obtain ⟨g', hrun, hadd, hcount, hall⟩ := ih (updTile g q.1 q.2 (setMine true)) l.dropLast
        hnd' hfree'
      have hstep : MinesAdded g (updTile g q.1 q.2 (setMine true)) := minesAdded_upd ht hm
      have hc1 := countTiles_updTile (fun t => t.mine) ht (setMine true)
      simp only [hm, setMine, Bool.false_eq_true, if_false, if_true, Nat.add_zero] at hc1
      have hlen : l.length = l.dropLast.length + 1 := by
        conv_lhs => rw [← hl]
        simp
      simp only [ht]
      refine ⟨g', hrun, minesAdded_trans hstep hadd, ?_, ?_⟩
      · rw [hcount, hc1, hlen]
        omega
      · intro hle q' hq'
        rw [← hl] at hq'
        rcases List.mem_append.1 hq' with h1 | h1
        · exact hall (by omega) q' h1
        · simp only [List.mem_singleton] at h1
          subst h1
          have hself : getTile (updTile g q'.1 q'.2 (setMine true)) q'.1 q'.2
              = some (setMine true t) := by
            rw [getTile_updTile_same, ht]; rfl
          obtain ⟨t', ht', _, _, hmine⟩ := minesAdded_tile hadd hself
          exact ⟨t', ht', hmine rfl⟩

/-- On a rectangular grid with at least one row `placeMines` succeeds, only adds
mines, and adds exactly `min n F` of them, `F` the number of non-mine tiles. -/
theorem placeMines_spec {g : Grid} (hR : Rect g) (hne : shape g ≠ []) (n : Int)
    (rnd : Nat → Nat) :
    ∃ g', placeMines g n rnd = some g' ∧ MinesAdded g g' ∧
      countTiles (fun t => t.mine) g' =
        countTiles (fun t => t.mine) g + min n.toNat (countTiles (fun t => !t.mine) g) ∧
      (n ≤ 0 → g' = g) := by
  unfold placeMines
  by_cases hn : n ≤ 0
  · simp only [hn, if_true]
    have : n.toNat = 0 := by omega
    exact ⟨g, rfl, minesAdded_refl g, by simp [this], fun _ => rfl⟩
  · simp only [hn, if_false, getGridSize_eq g hne]
    have hreads : ∀ q ∈ scanOrder (shape g).length ((shape g).headD 0),
        ∃ t, getTile g q.1 q.2 = some t :=
      fun q hq => getTile_isSome hR ((mem_scanOrder _ _ q).1 hq)
    obtain ⟨l, hl⟩ := filterCoords_isSome g (fun t => !t.mine && !thisRevealed) _ hreads
    simp only [hl]
    have hperm := shuffle_perm rnd l
    have hnd : (shuffle rnd l).Nodup :=
      hperm.nodup_iff.2 ((filterCoords_sublist hl).nodup (nodup_scanOrder _ _))
    have hfree : ∀ q ∈ shuffle rnd l, ∃ t, getTile g q.1 q.2 = some t ∧ t.mine = false := by
      intro q hq
      obtain ⟨_, t, ht, hp⟩ := (mem_filterCoords hl q).1 (hperm.mem_iff.1 hq)
      exact ⟨t, ht, by simpa [thisRevealed] using hp⟩
    obtain ⟨g', hrun, hadd, hcount, hall⟩ := placeLoop_spec n.toNat g (shuffle rnd l) hnd hfree
    refine ⟨g', hrun, hadd, ?_, fun h => h.elim⟩
    rw [hcount, hperm.length_eq]
    have htot : countTiles (fun _ => true) g' = countTiles (fun _ => true) g := by
      rw [countTiles_true, countTiles_true, hadd.1]
    have h1 := countTiles_mine_add g
    have h2 := countTiles_mine_add g'
    rw [hperm.length_eq] at hcount hall
    by_cases hle : l.length ≤ n.toNat
    · have hzero : countTiles (fun t => !t.mine) g' = 0 := by
        apply countTiles_eq_zero
        intro row hrow t ht
        obtain ⟨r, c, t', hget, rfl⟩ :=
          (exists_getTile_iff_mem g' (fun x => x = t)).2 ⟨row, hrow, t, ht, rfl⟩
        cases hmine : t'.mine with
        | true => rfl
        | false =>
          exfalso
          rcases hadd.2 r c with e | ⟨t0, _, _, e⟩
          · rw [hget] at e
            have hB : InBounds g r c := inBounds_of_getTile hR e.symm
            have hmem : (r, c) ∈ l :=
              (mem_filterCoords hl (r, c)).2
                ⟨(mem_scanOrder _ _ (r, c)).2 hB, t', e.symm, by simp [thisRevealed, hmine]⟩
            obtain ⟨t2, hget2, hm2⟩ := hall hle (r, c) (hperm.mem_iff.2 hmem)
            simp only at hget2
            rw [hget] at hget2
            cases hget2
            rw [hmine] at hm2
            cases hm2
          · rw [hget] at e
            cases e
            simp [setMine] at hmine
      omega
    · omega

/-! ## `guessTile` -/

/-- Under `RevealsWhere ok` every tile keeps its `mine` and `marked` flags, a
revealed tile stays revealed, and a newly revealed tile satisfies `ok`. -/
theorem revealsWhere_tile {ok : Tile → Bool} {g g' : Grid} (h : RevealsWhere ok g g')
    {r c : Int} {t : Tile} (ht : getTile g r c = some t) :
    ∃ t', getTile g' r c = some t' ∧ t'.mine = t.mine ∧ t'.marked = t.marked ∧
      (t.revealed = true → t'.revealed = true) ∧
      (t'.revealed = true → t.revealed = true ∨ ok t = true) := by
  rcases h.2 r c with e | ⟨t0, ht0, hok, e⟩
  · exact ⟨t, e.trans ht, rfl, rfl, id, Or.inl⟩
  · rw [ht] at ht0
    cases ht0
    exact ⟨setRevealed true t, e, rfl, rfl, fun _ => rfl, fun _ => Or.inr hok⟩

theorem floodable_unmarked (t : Tile) (h : floodable t = true) : unmarked t = true := by
  simp only [floodable, Bool.and_eq_true] at h
  exact h.2

theorem countMarks_isSome (g : Grid) (l : List Coord)
    (h : ∀ q ∈ l, ∃ t, getTile g q.1 q.2 = some t) : ∃ n, countMarks g l = some n := by
  induction l with
  | nil => exact ⟨0, rfl⟩
  | cons q rest ih =>
    obtain ⟨t, ht⟩ := h q (List.mem_cons_self _ _)
    obtain ⟨n, hn⟩ := ih (fun q' hq' => h q' (List.mem_cons_of_mem _ hq'))
    rcases q with ⟨r, c⟩
    simp only [countMarks, ht, hn]
    exact ⟨_, rfl⟩

/-- The revealing loop of the chord branch returns on a rectangular grid and only
sets `revealed` on unmarked tiles. -/
theorem chordLoop_spec : ∀ (l : List Coord) (g : Grid), Rect g →
    (∀ q ∈ l, InBounds g q.1 q.2) →
    ∃ g', chordLoop g l = some g' ∧ RevealsWhere unmarked g g' := by
  intro l
  induction l with
  | nil => intro g _ _; exact ⟨g, rfl, revealsWhere_refl _ g⟩
  | cons q rest ih =>
    intro g hR hB
    rcases q with ⟨r, c⟩
    have hq : InBounds g r c := hB (r, c) (List.mem_cons_self _ _)
    have hrest : ∀ q' ∈ rest, InBounds g q'.1 q'.2 :=
      fun q' hq' => hB q' (List.mem_cons_of_mem _ hq')
    obtain ⟨t, ht⟩ := getTile_isSome hR hq
    simp only [chordLoop, ht]
    by_cases hc : (!t.marked && !t.revealed) = true
    · simp only [hc, if_true]
      have hk : unmarked t = true := by
        simp only [Bool.and_eq_true] at hc
        exact hc.1
      have hs1 := shape_updTile g r c (setRevealed true)
      have hR1 : Rect (updTile g r c (setRevealed true)) := Rect_of_shape hs1 hR
      have hstep : RevealsWhere unmarked g (updTile g r c (setRevealed true)) :=
        revealsWhere_upd ht hk
      by_cases hm : (!t.mine) = true
      · simp only [hm, if_true]
        obtain ⟨g2, hrun, hrel⟩ := revealSafeTilesFrom_spec hR1 (InBounds_of_shape hs1 hq)
        simp only [hrun]
        have hrel' : RevealsWhere unmarked g g2 :=
          revealsWhere_trans hstep (revealsWhere_mono floodable_unmarked hrel)
        obtain ⟨g', hg', hrel2⟩ := ih g2 (Rect_of_shape hrel'.1 hR)
          (fun q' hq' => InBounds_of_shape hrel'.1 (hrest q' hq'))
        exact ⟨g', hg', revealsWhere_trans hrel' hrel2⟩
      · simp only [hm, if_false]
        obtain ⟨g', hg', hrel2⟩ := ih _ hR1
          (fun q' hq' => InBounds_of_shape hs1 (hrest q' hq'))
        exact ⟨g', hg', revealsWhere_trans hstep hrel2⟩
    · simp only [hc, if_false]
      exact ih g hR hrest

/-- The branches of `guessTile` on a rectangular grid and an in-bounds coordinate:
the call returns a grid `g'` together with `checkWin g'`, and `g'` is, by branch,
(1) the grid with the target's `marked` flag negated; (2) after a first click on
a mine, the grid with the target cleared and revealed, then one `placeMines(1)`,
then a flood fill; (3) otherwise the grid with `revealed` set on some unmarked
tiles. -/
theorem guessTile_cases {g : Grid} (hR : Rect g) {row column : Int}
    (hB : InBounds g row column) (mark : Bool) (rnd : Nat → Nat) :
    ∃ t g', getTile g row column = some t ∧
      guessTile g row column mark rnd = some (g', checkWin g') ∧
      (((mark || t.marked) = true ∧ g' = updTile g row column (setMarked (!t.marked))) ∨
       ((mark || t.marked) = false ∧ (t.mine && isGridEmpty g) = true ∧
         ∃ g2, placeMines (updTile (updTile g row column (setMine false)) row column
             (setRevealed true)) 1 rnd = some g2 ∧
           MinesAdded (updTile (updTile g row column (setMine false)) row column
             (setRevealed true)) g2 ∧
           countTiles (fun t => t.mine) g2 =
             countTiles (fun t => t.mine) (updTile (updTile g row column (setMine false))
               row column (setRevealed true)) +
             min 1 (countTiles (fun t => !t.mine) (updTile (updTile g row column
               (setMine false)) row column (setRevealed true))) ∧
           revealSafeTilesFrom g2 row column = some g' ∧ RevealsWhere floodable g2 g') ∨
       ((mark || t.marked) = false ∧ (t.mine && isGridEmpty g) = false ∧
         RevealsWhere unmarked g g')) := by
  obtain ⟨t, ht⟩ := getTile_isSome hR hB
  have hne : shape g ≠ [] := shape_ne_nil_of_inBounds hB
  unfold guessTile
  simp only [ht]
  cases hmk : (mark || t.marked) with
  | true =>
    simp only [if_true]
    exact ⟨t, _, rfl, rfl, Or.inl ⟨hmk, rfl⟩⟩
  | false =>
    simp only [Bool.false_eq_true, if_false]
    have hunm : unmarked t = true := by
      simp only [Bool.or_eq_false_iff] at hmk
      simp [unmarked, hmk.2]
    cases hfirst : (t.mine && isGridEmpty g) with
    | true =>
      simp only [if_true]
      have hs1 : shape (updTile (updTile g row column (setMine false)) row column
          (setRevealed true)) = shape g := by
        rw [shape_updTile, shape_updTile]
      obtain ⟨g2, hpl, hadd, hcount, _⟩ :=
        placeMines_spec (Rect_of_shape hs1 hR) (hs1 ▸ hne) 1 rnd
      have hs2 : shape g2 = shape g := hadd.1.trans hs1
      obtain ⟨g3, hrun, hrel⟩ :=
        revealSafeTilesFrom_spec (Rect_of_shape hs2 hR) (InBounds_of_shape hs2 hB)
      simp only [hpl, hrun]
      exact ⟨t, g3, rfl, rfl, Or.inr (Or.inl ⟨hmk, hfirst, g2, rfl, hadd, hcount, hrun, hrel⟩)⟩
    | false =>
      simp only [Bool.false_eq_true, if_false]
      by_cases hrev : t.revealed = true
      · simp only [hrev, if_true]
        by_cases hm : t.mine = true
        · simp only [hm, if_true]
          exact ⟨t, g, rfl, rfl, Or.inr (Or.inr ⟨hmk, hfirst, revealsWhere_refl _ g⟩)⟩
        · simp only [hm, if_false]
          rw [getSurroundingTiles_eq g hne]
          simp only
          have hnbB : ∀ q ∈ offsets.filterMap
              (neighbourAt (shape g).length ((shape g).headD 0) row column true),
              InBounds g q.1 q.2 :=
            mem_getSurroundingTiles_inBounds (getSurroundingTiles_eq g hne row column true)
          obtain ⟨n, hn⟩ := countMarks_isSome g _ (fun q hq => getTile_isSome hR (hnbB q hq))
          obtain ⟨m, hmn⟩ := getSurroundingMines_isSome hR row column hne
          simp only [hn, hmn]
          by_cases he : n = m.length
          · simp only [he, if_true]
            obtain ⟨g', hg', hrel⟩ := chordLoop_spec _ g hR hnbB
            simp only [hg']
            exact ⟨t, g', rfl, rfl, Or.inr (Or.inr ⟨hmk, hfirst, hrel⟩)⟩
          · simp only [he, if_false]
            exact ⟨t, g, rfl, rfl, Or.inr (Or.inr ⟨hmk, hfirst, revealsWhere_refl _ g⟩)⟩
      · simp only [hrev, if_false]
        by_cases hm : t.mine = true
        · simp only [hm, if_true]
          exact ⟨t, _, rfl, rfl, Or.inr (Or.inr ⟨hmk, hfirst, revealsWhere_upd ht hunm⟩)⟩
        · simp only [hm, if_false]
          obtain ⟨g', hrun, hrel⟩ := revealSafeTilesFrom_spec hR hB
          simp only [hrun]
          exact ⟨t, g', rfl, rfl,
            Or.inr (Or.inr ⟨hmk, hfirst, revealsWhere_mono floodable_unmarked hrel⟩)⟩

/-- The grid after the two writes `tile.mine = false; tile.revealed = true` of the
first-click branch. -/
theorem getTile_firstClick {g : Grid} {row column : Int} {t : Tile}
    (ht : getTile g row column = some t) (r c : Int) :
    getTile (updTile (updTile g row column (setMine false)) row column (setRevealed true)) r c =
      if row = r ∧ column = c then some (setRevealed true (setMine false t))
      else getTile g r c := by
  by_cases e : row = r ∧ column = c
  · obtain ⟨rfl, rfl⟩ := e
    rw [getTile_updTile_same, getTile_updTile_same, ht]
    simp
  · rw [getTile_updTile_ne _ _ _ _ _ _ e, getTile_updTile_ne _ _ _ _ _ _ e]
    simp [e]

/-! ## Counts that depend on one flag only -/

theorem getTile_map (g : Grid) (f : Tile → Tile) (r c : Int) :
    getTile (g.map (List.map f)) r c = (getTile g r c).map f := by
  by_cases hn : 0 ≤ r ∧ 0 ≤ c
  · rw [getTile_toNat _ r c hn, getTile_toNat g r c hn]
    simp only [List.getElem?_map]
    cases g[r.toNat]? with
    | none => rfl
    | some rw => simp
  · rw [getTile_eq_none_of_neg _ r c hn, getTile_eq_none_of_neg g r c hn]
    rfl

theorem shape_map (g : Grid) (f : Tile → Tile) : shape (g.map (List.map f)) = shape g := by
  induction g with
  | nil => rfl
  | cons row rest ih =>
    simp only [shape, List.map_cons, List.length_map, List.cons.injEq, true_and] at ih ⊢
    exact ih

theorem countTiles_map (p : Tile → Bool) (f : Tile → Tile) (g : Grid) :
    countTiles p (g.map (List.map f)) = countTiles (p ∘ f) g := by
  induction g with
  | nil => rfl
  | cons row rest ih =>
    rw [List.map_cons, countTiles_cons, countTiles_cons, ih, List.countP_map]

/-- Grids of the same shape whose tiles agree on `p` everywhere have the same
number of tiles satisfying `p`. -/
theorem countTiles_congr (p : Tile → Bool) {g g' : Grid} (hs : shape g = shape g')
    (h : ∀ r c : Int, (getTile g r c).map p = (getTile g' r c).map p) :
    countTiles p g = countTiles p g' := by
  have e : g.map (List.map fun t => (⟨p t, false, false⟩ : Tile)) =
      g'.map (List.map fun t => (⟨p t, false, false⟩ : Tile)) := by
    apply grid_ext
    · rw [shape_map, shape_map]; exact hs
    · intro r c
      rw [getTile_map, getTile_map]
      have := h r c
      cases hg : getTile g r c <;> cases hg' : getTile g' r c <;> simp [hg, hg'] at this ⊢
      exact this
  have e1 := countTiles_map (fun t => t.mine) (fun t => (⟨p t, false, false⟩ : Tile)) g
  have e2 := countTiles_map (fun t => t.mine) (fun t => (⟨p t, false, false⟩ : Tile)) g'
  rw [e] at e1
  exact (e1.symm.trans e2).symm ▸ rfl

theorem countTiles_mine_of_revealsWhere {ok : Tile → Bool} {g g' : Grid}
    (h : RevealsWhere ok g g') :
    countTiles (fun t => t.mine) g' = countTiles (fun t => t.mine) g := by
  apply countTiles_congr _ h.1
  intro r c
  rcases h.2 r c with e | ⟨t, ht, _, e⟩
  · rw [e]
  · rw [e, ht]; rfl

/-! ## A lost game -/

/-- One `guessTile` call on a grid with a revealed mine returns `(true, false)`,
keeps the shape and leaves a revealed mine. -/
theorem guessTile_lost {g : Grid} (hR : Rect g) {row column : Int}
    (hB : InBounds g row column) (mark : Bool) (rnd : Nat → Nat)
    (hlost : ∃ (r c : Int) (t : Tile), getTile g r c = some t ∧
      (t.revealed = true ∧ t.mine = true)) :
    ∃ g', guessTile g row column mark rnd = some (g', (true, false)) ∧ shape g' = shape g ∧
      ∃ (r c : Int) (t : Tile), getTile g' r c = some t ∧ (t.revealed = true ∧ t.mine = true) := by
  obtain ⟨r0, c0, t0, ht0, hrev0, hmine0⟩ := hlost
  obtain ⟨t, g', ht, hrun, hcase⟩ := guessTile_cases hR hB mark rnd
  have key : shape g' = shape g ∧
      ∃ (r c : Int) (t : Tile), getTile g' r c = some t ∧ (t.revealed = true ∧ t.mine = true) := by
    rcases hcase with ⟨_, rfl⟩ | ⟨_, hfirst, _⟩ | ⟨_, _, hrel⟩
    · refine ⟨shape_updTile _ _ _ _, r0, c0, ?_⟩
      rw [getTile_updTile]
      by_cases e : row = r0 ∧ column = c0
      · refine ⟨setMarked (!t.marked) t0, by simp [e, ht0], hrev0, hmine0⟩
      · exact ⟨t0, by simp [e, ht0], hrev0, hmine0⟩
    · exfalso
      have he : isGridEmpty g = false := (isGridEmpty_eq_false_iff g).2 ⟨r0, c0, t0, ht0, hrev0⟩
      rw [he] at hfirst
      simp at hfirst
    · obtain ⟨t', ht', hm, _, hkeep, _⟩ := revealsWhere_tile hrel ht0
      exact ⟨hrel.1, r0, c0, t', ht', hkeep hrev0, hm.trans hmine0⟩
  obtain ⟨hs, r, c, t', ht', h1, h2⟩ := key
  refine ⟨g', ?_, hs, r, c, t', ht', h1, h2⟩
  rw [hrun, checkWin_of_revealed_mine ht' h1 h2]

/-! ## `getSurroundingTiles` as a filter of the nine offsets -/

theorem offsets_eq_rowMajor : offsets = rowMajorOffsets := by decide

theorem neighbourAt_eq (R C : Nat) (row column : Int) (d : Bool) (o : Int × Int) :
    neighbourAt R C row column d o =
      if isNeighbourOffset R C row column d o = true then some (row + o.1, column + o.2)
      else none := by
  rcases o with ⟨a, b⟩
  unfold neighbourAt isNeighbourOffset
  by_cases h0 : a = 0 ∧ b = 0
  · simp [h0]
  · have h0' : ¬ ((a, b) = ((0 : Int), (0 : Int))) := by
      intro e
      exact h0 ⟨congrArg Prod.fst e, congrArg Prod.snd e⟩
    simp only [h0, if_false, h0', ne_eq, not_false_eq_true, decide_True, Bool.true_and]
    cases d with
    | true => simp
    | false =>
      by_cases hd : a ≠ 0 ∧ b ≠ 0
      · have : ¬ (a = 0 ∨ b = 0) := by
          rintro (h | h)
          · exact hd.1 h
          · exact hd.2 h
        simp [hd, this]
      · have : a = 0 ∨ b = 0 := by
          by_cases ha : a = 0
          · exact Or.inl ha
          · by_cases hb : b = 0
            · exact Or.inr hb
            · exact absurd ⟨ha, hb⟩ hd
        have hd' : ¬ (¬ a = 0 ∧ ¬ b = 0) := hd
        simp [hd', this]

theorem filterMap_neighbourAt (R C : Nat) (row column : Int) (d : Bool)
    (l : List (Int × Int)) :
    l.filterMap (neighbourAt R C row column d) =
      (l.filter (isNeighbourOffset R C row column d)).map
        (fun o => (row + o.1, column + o.2)) := by
  induction l with
  | nil => rfl
  | cons o rest ih =>
    rw [List.filterMap_cons, neighbourAt_eq, List.filter_cons]
    by_cases h : isNeighbourOffset R C row column d o = true
    · simp only [h, if_true, List.map_cons, ih]
    · simp only [h, if_false, ih]
      rfl

theorem mem_rowMajorOffsets (o : Int × Int) :
    o ∈ rowMajorOffsets ↔
      (o.1 = -1 ∨ o.1 = 0 ∨ o.1 = 1) ∧ (o.2 = -1 ∨ o.2 = 0 ∨ o.2 = 1) := by
  rcases o with ⟨a, b⟩
  simp only [rowMajorOffsets, List.mem_flatMap, List.mem_map, List.mem_cons, List.mem_singleton,
    List.mem_nil_iff, or_false, Prod.mk.injEq]
  constructor
  · rintro ⟨x, hx, y, hy, rfl, rfl⟩
    exact ⟨hx, hy⟩
  · rintro ⟨hx, hy⟩
    exact ⟨a, hx, b, hy, rfl, rfl⟩

/-! ## The chord branch -/

theorem countMarks_eq {g : Grid} {l : List Coord} {n : Nat} (h : countMarks g l = some n) :
    n = l.countP (tileHas g (fun t => t.marked || (t.mine && t.revealed))) := by
  induction l generalizing n with
  | nil => simp [countMarks] at h; exact h.symm
  | cons q rest ih =>
    rcases q with ⟨r, c⟩
    simp only [countMarks] at h
    cases ht : getTile g r c with
    | none => simp [ht] at h
    | some t =>
      cases hk : countMarks g rest with
      | none => simp [ht, hk] at h
      | some k =>
        simp only [ht, hk, Option.some.injEq] at h
        have := ih hk
        rw [List.countP_cons, ← this, ← h]
        simp only [tileHas, ht]
        cases (t.marked || (t.mine && t.revealed)) <;> simp

theorem filterCoords_length {g : Grid} {p : Tile → Bool} {l kept : List Coord}
    (h : filterCoords g p l = some kept) : kept.length = l.countP (tileHas g p) := by
  induction l generalizing kept with
  | nil => simp [filterCoords] at h; subst h; rfl
  | cons q rest ih =>
    rcases q with ⟨r, c⟩
    simp only [filterCoords] at h
    cases ht : getTile g r c with
    | none => simp [ht] at h
    | some t =>
      cases hk : filterCoords g p rest with
      | none => simp [ht, hk] at h
      | some k =>
        simp only [ht, hk, Option.some.injEq] at h
        have := ih hk
        rw [List.countP_cons, ← this, ← h]
        simp only [tileHas, ht]
        cases p t <;> simp

/-- One iteration of the revealing loop of the chord branch: it leads to a grid
`g1` from which the loop continues, `g1` differs from `g` by reveals of unmarked
tiles, and the neighbour just handled is revealed in `g1` if it was unmarked. -/
theorem chordLoop_step {g : Grid} (hR : Rect g) {r c : Int} (hq : InBounds g r c)
    (rest : List Coord) :
    ∃ g1, chordLoop g ((r, c) :: rest) = chordLoop g1 rest ∧ RevealsWhere unmarked g g1 ∧
      ∀ tq, getTile g r c = some tq → tq.marked = false →
        ∃ tq', getTile g1 r c = some tq' ∧ tq'.revealed = true := by
  obtain ⟨t, ht⟩ := getTile_isSome hR hq
  simp only [chordLoop, ht]
  by_cases hc : (!t.marked && !t.revealed) = true
  · simp only [hc, if_true]
    have hk : unmarked t = true := by
      simp only [Bool.and_eq_true] at hc
      exact hc.1
    have hs1 := shape_updTile g r c (setRevealed true)
    have hstep : RevealsWhere unmarked g (updTile g r c (setRevealed true)) :=
      revealsWhere_upd ht hk
    have hself : getTile (updTile g r c (setRevealed true)) r c = some (setRevealed true t) := by
      rw [getTile_updTile_same, ht]; rfl
    by_cases hm : (!t.mine) = true
    · simp only [hm, if_true]
      obtain ⟨g2, hrun, hrel⟩ :=
        revealSafeTilesFrom_spec (Rect_of_shape hs1 hR) (InBounds_of_shape hs1 hq)
      simp only [hrun]
      refine ⟨g2, rfl, revealsWhere_trans hstep (revealsWhere_mono floodable_unmarked hrel), ?_⟩
      intro tq _ _
      obtain ⟨t', ht', _, _, hkeep, _⟩ := revealsWhere_tile hrel hself
      exact ⟨t', ht', hkeep rfl⟩
    · simp only [hm, if_false]
      exact ⟨_, rfl, hstep, fun _ _ _ => ⟨_, hself, rfl⟩⟩
  · simp only [hc, if_false]
    refine ⟨g, rfl, revealsWhere_refl _ g, ?_⟩
    intro tq htq hmk
    cases htq
    refine ⟨t, ht, ?_⟩
    cases hr : t.revealed with
    | true => rfl
    | false => simp [hmk, hr] at hc

/-- After the revealing loop of the chord branch every listed coordinate whose
tile was unmarked is revealed. -/
theorem chordLoop_reveals : ∀ (l : List Coord) (g g' : Grid), Rect g →
    (∀ q ∈ l, InBounds g q.1 q.2) → chordLoop g l = some g' →
    ∀ q ∈ l, ∀ tq, getTile g q.1 q.2 = some tq → tq.marked = false →
      ∃ tq', getTile g' q.1 q.2 = some tq' ∧ tq'.revealed = true := by
  intro l
  induction l with
  | nil => intro g g' _ _ _ q hq; cases hq
  | cons p rest ih =>
    intro g g' hR hB hrun q hq tq htq hmk
    rcases p with ⟨r, c⟩
    obtain ⟨g1, hstep, hrel, hhead⟩ :=
      chordLoop_step hR (hB (r, c) (List.mem_cons_self _ _)) rest
    rw [hstep] at hrun
    have hR1 : Rect g1 := Rect_of_shape hrel.1 hR
    have hB1 : ∀ q' ∈ rest, InBounds g1 q'.1 q'.2 :=
      fun q' hq' => InBounds_of_shape hrel.1 (hB q' (List.mem_cons_of_mem _ hq'))
    rcases List.mem_cons.1 hq with rfl | hq
    · obtain ⟨t1, ht1, hrev1⟩ := hhead tq htq hmk
      obtain ⟨g'', hrun', hrel'⟩ := chordLoop_spec rest g1 hR1 hB1
      rw [hrun] at hrun'
      cases hrun'
      obtain ⟨t2, ht2, _, _, hkeep, _⟩ := revealsWhere_tile hrel' ht1
      exact ⟨t2, ht2, hkeep hrev1⟩
    · obtain ⟨t1, ht1, _, hmk1, _, _⟩ := revealsWhere_tile hrel htq
      exact ih g1 g' hR1 hB1 hrun q hq t1 ht1 (hmk1.trans hmk)

/-! ## The first click -/

/-- `placeMines(1)` on a rectangular grid mines the coordinate popped first, and
changes nothing when there is no free tile. -/
theorem placeMines_one {g : Grid} (hR : Rect g) (hne : shape g ≠ []) (rnd : Nat → Nat) :
    (firstPlaced g rnd = none ∧ placeMines g 1 rnd = some g) ∨
    ∃ q : Coord, firstPlaced g rnd = some q ∧
      placeMines g 1 rnd = some (updTile g q.1 q.2 (setMine true)) := by
  have hreads : ∀ q ∈ scanOrder (shape g).length ((shape g).headD 0),
      ∃ t, getTile g q.1 q.2 = some t :=
    fun q hq => getTile_isSome hR ((mem_scanOrder _ _ q).1 hq)
  obtain ⟨l, hl⟩ := filterCoords_isSome g (fun t => !t.mine && !thisRevealed) _ hreads
  have h1 : ¬ ((1 : Int) ≤ 0) := by decide
  have h2 : (1 : Int).toNat = 0 + 1 := rfl
  unfold firstPlaced placeMines
  simp only [h1, if_false, getGridSize_eq g hne, hl, h2]
  rw [placeLoop]
  cases hlast : (shuffle rnd l).getLast? with
  | none => exact Or.inl ⟨rfl, rfl⟩
  | some q =>
    right
    have hq : q ∈ shuffle rnd l := by
      rw [← List.dropLast_append_getLast? q hlast]
      simp
    obtain ⟨_, t, ht, _⟩ := (mem_filterCoords hl q).1 ((shuffle_perm rnd l).mem_iff.1 hq)
    refine ⟨q, rfl, ?_⟩
    simp only [ht, placeLoop]

theorem checkWin_ne_loss {g : Grid} (h : hasRevealedMine g = false) :
    checkWin g ≠ (true, false) := by
  rw [checkWin_eq, h]
  simp only [Bool.false_eq_true, if_false]
  split <;> simp

theorem isGridEmpty_of_all_hidden {g : Grid}
    (h : ∀ (r c : Int) (t : Tile), getTile g r c = some t → t.revealed = false) :
    isGridEmpty g = true := by
  cases he : isGridEmpty g with
  | true => rfl
  | false =>
    obtain ⟨r, c, t, ht, hrev⟩ := (isGridEmpty_eq_false_iff g).1 he
    rw [h r c t ht] at hrev
    cases hrev

theorem all_hidden_of_isGridEmpty {g : Grid} (h : isGridEmpty g = true) (r c : Int) (t : Tile)
    (ht : getTile g r c = some t) : t.revealed = false := by
  cases hrev : t.revealed with
  | false => rfl
  | true =>
    have := (isGridEmpty_eq_false_iff g).2 ⟨r, c, t, ht, hrev⟩
    rw [h] at this
    cases this

/-! ## The instrumented work-list loop -/

theorem bump_map_fst (r : Option (Grid × List Coord × Nat)) :
    (bump r).map (fun x => x.1) = r.map (fun x => x.1) := by
  cases r <;> rfl

theorem bump_eq_some {r : Option (Grid × List Coord × Nat)} {g' : Grid} {vis' : List Coord}
    {n : Nat} (h : bump r = some (g', vis', n)) :
    ∃ k, n = k + 1 ∧ r = some (g', vis', k) := by
  cases r with
  | none => cases h
  | some x =>
    rcases x with ⟨a, b, c⟩
    simp only [bump, Option.map_some', Option.some.injEq, Prod.mk.injEq] at h
    obtain ⟨rfl, rfl, rfl⟩ := h
    exact ⟨c, rfl, rfl⟩

/-- The instrumented loop computes the grid of `revealLoop`. -/
theorem revealLoop_eq_trace : ∀ (fuel : Nat) (g : Grid) (st vis : List Coord),
    revealLoop fuel g st vis = (revealTrace fuel g st vis).map (fun x => x.1) := by
  intro fuel
  induction fuel with
  | zero =>
    intro g st vis
    cases st <;> rfl
  | succ fuel ih =>
    intro g st vis
    cases st with
    | nil => rfl
    | cons p rest =>
      rw [revealLoop, revealTrace]
      by_cases hv : p ∈ vis
      · simp only [hv, if_true, bump_map_fst, ih]
      · simp only [hv, if_false]
        cases getTile g p.1 p.2 with
        | none => rfl
        | some tile =>
          simp only
          by_cases hm : tile.mine = true
          · simp only [hm, if_true, bump_map_fst, ih]
          · simp only [hm, Bool.false_eq_true, if_false]
            by_cases hk : tile.marked = true
            · simp only [hk, if_true, Bool.false_eq_true, if_false, bump_map_fst, ih]
            · simp only [hk, Bool.false_eq_true, if_false]
              cases getSurroundingMines (updTile g p.1 p.2 (setRevealed true)) p.1 p.2 with
              | none => rfl
              | some m =>
                simp only
                by_cases hz : m.length = 0
                · simp only [hz, if_true]
                  cases getSurroundingTiles (updTile g p.1 p.2 (setRevealed true)) p.1 p.2 true with
                  | none => rfl
                  | some nb => simp only [Bool.false_eq_true, if_false, bump_map_fst, ih]
                · simp only [hz, Bool.false_eq_true, if_false, bump_map_fst, ih]

/-- More fuel does not change the result of the instrumented loop. -/
theorem revealTrace_fuel_mono : ∀ (fuel : Nat) (g : Grid) (st vis : List Coord)
    (res : Grid × List Coord × Nat),
    revealTrace fuel g st vis = some res →
    ∀ extra, revealTrace (fuel + extra) g st vis = some res := by
  intro fuel
  induction fuel with
  | zero =>
    intro g st vis res h extra
    cases st with
    | nil => cases extra <;> simpa [revealTrace] using h
    | cons p rest => simp [revealTrace] at h
  | succ fuel ih =>
    intro g st vis res h extra
    cases st with
    | nil => simpa [revealTrace] using h
    | cons p rest =>
      have e : fuel + 1 + extra = (fuel + extra) + 1 := by omega
      have hb : ∀ (g1 : Grid) (st1 vis1 : List Coord),
          bump (revealTrace fuel g1 st1 vis1) = some res →
          bump (revealTrace (fuel + extra) g1 st1 vis1) = some res := by
        intro g1 st1 vis1 hb
        rcases res with ⟨a, b, c⟩
        obtain ⟨k, rfl, hk⟩ := bump_eq_some hb
        rw [ih _ _ _ _ hk extra]
        rfl
      rw [e]
      rw [revealTrace] at h ⊢
      by_cases hv : p ∈ vis
      · simp only [hv, if_true] at h ⊢
        exact hb _ _ _ h
      · simp only [hv, if_false] at h ⊢
        cases ht : getTile g p.1 p.2 with
        | none => simp [ht] at h
        | some tile =>
          simp only [ht] at h ⊢
          by_cases hm : tile.mine = true
          · simp only [hm, if_true] at h ⊢
            exact hb _ _ _ h
          · simp only [hm, if_false] at h ⊢
            by_cases hk : tile.marked = true
            · simp only [hk, if_true] at h ⊢
              exact hb _ _ _ h
            · simp only [hk, if_false] at h ⊢
              cases hmn : getSurroundingMines (updTile g p.1 p.2 (setRevealed true)) p.1 p.2 with
              | none => simp [hmn] at h
              | some m =>
                simp only [hmn] at h ⊢
                by_cases hz : m.length = 0
                · simp only [hz, if_true] at h ⊢
                  cases hnb : getSurroundingTiles (updTile g p.1 p.2 (setRevealed true))
                      p.1 p.2 true with
                  | none => simp [hnb] at h
                  | some nb =>
                    simp only [hnb] at h ⊢
                    exact hb _ _ _ h
                · simp only [hz, if_false] at h ⊢
                  exact hb _ _ _ h

/-- A successful instrumented run from a non-empty work list starts with one
`LoopStep` and continues from the state it leads to. -/
theorem revealTrace_succ {fuel : Nat} {g : Grid} {p : Coord} {rest vis : List Coord}
    {res : Grid × List Coord × Nat}
    (h : revealTrace (fuel + 1) g (p :: rest) vis = some res) :
    ∃ g1 st1 vis1, LoopStep g p rest vis g1 st1 vis1 ∧
      bump (revealTrace fuel g1 st1 vis1) = some res := by
  rw [revealTrace] at h
  by_cases hv : p ∈ vis
  · simp only [hv, if_true] at h
    exact ⟨_, _, _, LoopStep.seen hv, h⟩
  · simp only [hv, if_false] at h
    cases ht : getTile g p.1 p.2 with
    | none => simp [ht] at h
    | some tile =>
      simp only [ht] at h
      by_cases hm : tile.mine = true
      · simp only [hm, if_true] at h
        exact ⟨_, _, _, LoopStep.blocked tile hv ht (by simp [floodable, hm]), h⟩
      · simp only [hm, Bool.false_eq_true, if_false] at h
        by_cases hk : tile.marked = true
        · simp only [hk, if_true] at h
          exact ⟨_, _, _, LoopStep.blocked tile hv ht (by simp [floodable, hk]), h⟩
        · simp only [hk, Bool.false_eq_true, if_false] at h
          have hfl : floodable tile = true := by simp [floodable, hm, hk]
          cases hmn : getSurroundingMines (updTile g p.1 p.2 (setRevealed true)) p.1 p.2 with
          | none => simp [hmn] at h
          | some m =>
            simp only [hmn] at h
            by_cases hz : m.length = 0
            · simp only [hz, if_true] at h
              cases hnb : getSurroundingTiles (updTile g p.1 p.2 (setRevealed true))
                  p.1 p.2 true with
              | none => simp [hnb] at h
              | some nb =>
                simp only [hnb] at h
                exact ⟨_, _, _, LoopStep.expand tile m nb hv ht hfl hmn hz hnb, h⟩
            · simp only [hz, if_false] at h
              exact ⟨_, _, _, LoopStep.reveal tile m hv ht hfl hmn hz, h⟩

/-- Induction along a successful instrumented run: a property that holds of the
finished loop and is carried backwards over every iteration holds of the run. -/
theorem revealTrace_induction
    (P : Grid → List Coord → List Coord → Grid → List Coord → Nat → Prop)
    (hnil : ∀ g vis, P g [] vis g vis 0)
    (hstep : ∀ g p rest vis g1 st1 vis1 g' vis' n, LoopStep g p rest vis g1 st1 vis1 →
      P g1 st1 vis1 g' vis' n → P g (p :: rest) vis g' vis' (n + 1)) :
    ∀ (fuel : Nat) (g : Grid) (st vis : List Coord) (g' : Grid) (vis' : List Coord) (n : Nat),
      revealTrace fuel g st vis = some (g', vis', n) → P g st vis g' vis' n := by
  intro fuel
  induction fuel with
  | zero =>
    intro g st vis g' vis' n h
    cases st with
    | nil =>
      simp only [revealTrace, Option.some.injEq, Prod.mk.injEq] at h
      obtain ⟨rfl, rfl, rfl⟩ := h
      exact hnil _ _
    | cons p rest => simp [revealTrace] at h
  | succ fuel ih =>
    intro g st vis g' vis' n h
    cases st with
    | nil =>
      simp only [revealTrace, Option.some.injEq, Prod.mk.injEq] at h
      obtain ⟨rfl, rfl, rfl⟩ := h
      exact hnil _ _
    | cons p rest =>
      obtain ⟨g1, st1, vis1, hs, hb⟩ := revealTrace_succ h
      obtain ⟨k, rfl, hk⟩ := bump_eq_some hb
      exact hstep _ _ _ _ _ _ _ _ _ _ hs (ih _ _ _ _ _ _ hk)

/-- What every iteration keeps: the shape, and in-bounds work list and visited
set; it adds at most one coordinate to the visited set, a new one, and at most
eight to the work list. -/
theorem loopStep_frame {g : Grid} {p : Coord} {rest vis : List Coord} {g1 : Grid}
    {st1 vis1 : List Coord} (h : LoopStep g p rest vis g1 st1 vis1) :
    shape g1 = shape g ∧ st1.length ≤ rest.length + 8 * (vis1.length - vis.length) ∧
      vis.length ≤ vis1.length ∧ (vis.Nodup → vis1.Nodup) ∧
      (∀ q ∈ vis1, q ∈ vis ∨ q = p) ∧
      ((∀ q ∈ p :: rest, InBounds g q.1 q.2) → ∀ q ∈ st1, InBounds g q.1 q.2) := by
  cases h with
  | seen hv =>
    exact ⟨rfl, by omega, Nat.le_refl _, id, fun q hq => Or.inl hq,
      fun hB q hq => hB q (List.mem_cons_of_mem _ hq)⟩
  | blocked tile hv ht hfl =>
    refine ⟨rfl, by simp, by simp, fun hnd => List.nodup_cons.2 ⟨hv, hnd⟩, ?_,
      fun hB q hq => hB q (List.mem_cons_of_mem _ hq)⟩
    intro q hq
    rcases List.mem_cons.1 hq with rfl | hq
    · exact Or.inr rfl
    · exact Or.inl hq
  | expand tile m nb hv ht hfl hmn hz hnb =>
    have hs := shape_updTile g p.1 p.2 (setRevealed true)
    have hl := length_getSurroundingTiles_le hnb
    refine ⟨hs, ?_, by simp, fun hnd => List.nodup_cons.2 ⟨hv, hnd⟩, ?_, ?_⟩
    · simp only [List.length_append, List.length_reverse, List.length_cons]
      omega
    · intro q hq
      rcases List.mem_cons.1 hq with rfl | hq
      · exact Or.inr rfl
      · exact Or.inl hq
    · intro hB q hq
      rcases List.mem_append.1 hq with hq | hq
      · exact InBounds_of_shape hs.symm
          (mem_getSurroundingTiles_inBounds hnb q (List.mem_reverse.1 hq))
      · exact hB q (List.mem_cons_of_mem _ hq)
  | reveal tile m hv ht hfl hmn hz =>
    refine ⟨shape_updTile g p.1 p.2 (setRevealed true), by simp, by simp,
      fun hnd => List.nodup_cons.2 ⟨hv, hnd⟩, ?_,
      fun hB q hq => hB q (List.mem_cons_of_mem _ hq)⟩
    intro q hq
    rcases List.mem_cons.1 hq with rfl | hq
    · exact Or.inr rfl
    · exact Or.inl hq

/-- Bounds on a successful instrumented run: no coordinate is visited twice,
every visited coordinate is in bounds, and the number of iterations is at most
the initial length of the work list plus eight per newly visited coordinate. -/
theorem revealTrace_bounds : ∀ (fuel : Nat) (g : Grid) (st vis : List Coord) (g' : Grid)
    (vis' : List Coord) (n : Nat), revealTrace fuel g st vis = some (g', vis', n) →
    (∀ q ∈ st, InBounds g q.1 q.2) → (∀ q ∈ vis, InBounds g q.1 q.2) → vis.Nodup →
    vis'.Nodup ∧ (∀ q ∈ vis', InBounds g q.1 q.2) ∧ vis.length ≤ vis'.length ∧
      n + 8 * vis.length ≤ st.length + 8 * vis'.length := by
  apply revealTrace_induction
    (fun g st vis _ vis' n => (∀ q ∈ st, InBounds g q.1 q.2) →
      (∀ q ∈ vis, InBounds g q.1 q.2) → vis.Nodup →
      vis'.Nodup ∧ (∀ q ∈ vis', InBounds g q.1 q.2) ∧ vis.length ≤ vis'.length ∧
        n + 8 * vis.length ≤ st.length + 8 * vis'.length)
  · intro g vis _ hvis hnd
    exact ⟨hnd, hvis, Nat.le_refl _, by simp⟩
  · intro g p rest vis g1 st1 vis1 g' vis' n hs ih hst hvis hnd
    obtain ⟨hshape, hlen, hvl, hnd1, hmem, hB1⟩ := loopStep_frame hs
    have hp : InBounds g p.1 p.2 := hst p (List.mem_cons_self _ _)
    obtain ⟨h1, h2, h3, h4⟩ := ih
      (fun q hq => InBounds_of_shape hshape (hB1 hst q hq))
      (fun q hq => InBounds_of_shape hshape (by
        rcases hmem q hq with h | rfl
        · exact hvis q h
        · exact hp))
      (hnd1 hnd)
    refine ⟨h1, fun q hq => InBounds_of_shape hshape.symm (h2 q hq), by omega, ?_⟩
    simp only [List.length_cons]
    omega

/-! ## The flood fill against its reference definition -/

theorem sameSkel_upd_right {g0 g : Grid} (hs : SameSkel g0 g) (r c : Int) :
    SameSkel g0 (updTile g r c (setRevealed true)) := by
  refine ⟨by rw [shape_updTile]; exact hs.1, fun r' c' => ?_⟩
  rw [getTile_updTile]
  by_cases e : r = r' ∧ c = c'
  · simp only [e, and_self, if_true]
    obtain ⟨rfl, rfl⟩ := e
    rw [hs.2 r c]
    cases getTile g r c <;> rfl
  · simp only [e, if_false]
    exact hs.2 r' c'

theorem tileHas_floodable_of_sameSkel {g0 g : Grid} (hs : SameSkel g0 g) {q : Coord}
    {tile : Tile} (ht : getTile g q.1 q.2 = some tile) :
    tileHas g0 floodable q = floodable tile := by
  have := hs.2 q.1 q.2
  rw [ht] at this
  unfold tileHas
  cases h0 : getTile g0 q.1 q.2 with
  | none => simp [h0] at this
  | some t0 =>
    simp only [h0, Option.map_some', Option.some.injEq, Prod.mk.injEq] at this
    simp only [floodable, this.1, this.2]

theorem neighboursOf_eq {g0 g1 : Grid} (hs : shape g0 = shape g1) {p : Coord}
    {nb : List Coord} (h : getSurroundingTiles g1 p.1 p.2 true = some nb) :
    neighboursOf g0 p = nb := by
  unfold neighboursOf
  rw [getSurroundingTiles_of_shape hs, h]

theorem minesAround_eq {g0 g1 : Grid} (hs : SameSkel g0 g1) {p : Coord} {m : List Coord}
    (h : getSurroundingMines g1 p.1 p.2 = some m) : minesAround g0 p = m.length := by
  rw [← sameSkel_getSurroundingMines hs] at h
  unfold getSurroundingMines at h
  unfold minesAround neighboursOf
  cases hnb : getSurroundingTiles g0 p.1 p.2 true with
  | none => simp [hnb] at h
  | some nb =>
    simp only [hnb] at h ⊢
    exact (filterCoords_length h).symm

theorem floodSet_floodable {g : Grid} {start q : Coord} (h : FloodSet g start q) :
    tileHas g floodable q = true := by
  cases h with
  | start h => exact h
  | step s q _ _ _ h => exact h

theorem floodSet_of_pushed {g : Grid} {start q : Coord} (h : Pushed g start q)
    (hfl : tileHas g floodable q = true) : FloodSet g start q := by
  rcases h with rfl | ⟨s, hs, hz, hq⟩
  · exact FloodSet.start hfl
  · exact FloodSet.step s q hs hz hq hfl

theorem floodInv_nil {g0 : Grid} (start : Coord) {g : Grid} (hs : SameSkel g0 g)
    (vis : List Coord) : FloodInv g0 start g [] vis g vis :=
  { skel := hs
    visMono := fun _ h => h
    stackVisited := fun _ h => by cases h
    pushed := fun _ h hn => absurd h hn
    closed := fun _ h hn => absurd h hn
    sound := fun _ _ h => Or.inl h
    revMono := fun _ _ h => h }

/-- One iteration of the work-list loop, read against a grid `g0` with the same
mines and marks. -/
theorem loopStep_flood {g0 g : Grid} (hs : SameSkel g0 g) {p : Coord} {rest vis : List Coord}
    {g1 : Grid} {st1 vis1 : List Coord} (h : LoopStep g p rest vis g1 st1 vis1) :
    SameSkel g0 g1 ∧ (∀ q ∈ vis, q ∈ vis1) ∧ (∀ q ∈ vis1, q ∈ vis ∨ q = p) ∧ p ∈ vis1 ∧
      (∀ q ∈ rest, q ∈ st1) ∧
      (∀ q ∈ st1, q ∈ rest ∨
        (tileHas g0 floodable p = true ∧ minesAround g0 p = 0 ∧ q ∈ neighboursOf g0 p)) ∧
      (p ∉ vis → tileHas g0 floodable p = true →
        revAt g1 p.1 p.2 = true ∧
          (minesAround g0 p = 0 → ∀ q ∈ neighboursOf g0 p, q ∈ st1)) ∧
      (∀ r c : Int, revAt g1 r c = true →
        revAt g r c = true ∨ ((r, c) = p ∧ p ∉ vis ∧ tileHas g0 floodable p = true)) ∧
      (∀ r c : Int, revAt g r c = true → revAt g1 r c = true) := by
  cases h with
  | seen hv =>
    exact ⟨hs, fun _ h => h, fun _ h => Or.inl h, hv, fun _ h => h, fun _ h => Or.inl h,
      fun hn => absurd hv hn, fun _ _ h => Or.inl h, fun _ _ h => h⟩
  | blocked tile hv ht hfl =>
    have hfl0 : tileHas g0 floodable p = false := by
      rw [tileHas_floodable_of_sameSkel hs ht, hfl]
    refine ⟨hs, fun _ h => List.mem_cons_of_mem _ h, ?_, List.mem_cons_self _ _,
      fun _ h => h, fun _ h => Or.inl h, ?_, fun _ _ h => Or.inl h, fun _ _ h => h⟩
    · intro q hq
      rcases List.mem_cons.1 hq with rfl | hq
      · exact Or.inr rfl
      · exact Or.inl hq
    · intro _ h
      rw [hfl0] at h
      cases h
  | expand tile m nb hv ht hfl hmn hz hnb =>
    have hs1 := sameSkel_upd_right hs p.1 p.2
    have hfl0 : tileHas g0 floodable p = true := by
      rw [tileHas_floodable_of_sameSkel hs ht, hfl]
    have hN : neighboursOf g0 p = nb := neighboursOf_eq hs1.1 hnb
    have hZ : minesAround g0 p = 0 := by rw [minesAround_eq hs1 hmn, hz]
    refine ⟨hs1, fun _ h => List.mem_cons_of_mem _ h, ?_, List.mem_cons_self _ _,
      fun _ h => List.mem_append_right _ h, ?_, ?_, ?_, ?_⟩
    · intro q hq
      rcases List.mem_cons.1 hq with rfl | hq
      · exact Or.inr rfl
      · exact Or.inl hq
    · intro q hq
      rcases List.mem_append.1 hq with hq | hq
      · exact Or.inr ⟨hfl0, hZ, by rw [hN]; exact List.mem_reverse.1 hq⟩
      · exact Or.inl hq
    · intro _ _
      refine ⟨by rw [revAt_updTile ht]; simp, fun _ q hq => ?_⟩
      rw [hN] at hq
      exact List.mem_append_left _ (List.mem_reverse.2 hq)
    · intro r c h
      rw [revAt_updTile ht] at h
      simp only [Bool.or_eq_true, decide_eq_true_eq] at h
      rcases h with h | h
      · exact Or.inl h
      · exact Or.inr ⟨(Prod.ext h.1 h.2).symm, hv, hfl0⟩
    · intro r c h
      rw [revAt_updTile ht, h]
      rfl
  | reveal tile m hv ht hfl hmn hz =>
    have hs1 := sameSkel_upd_right hs p.1 p.2
    have hfl0 : tileHas g0 floodable p = true := by
      rw [tileHas_floodable_of_sameSkel hs ht, hfl]
    have hZ : minesAround g0 p ≠ 0 := by rw [minesAround_eq hs1 hmn]; exact hz
    refine ⟨hs1, fun _ h => List.mem_cons_of_mem _ h, ?_, List.mem_cons_self _ _,
      fun _ h => h, fun _ h => Or.inl h, ?_, ?_, ?_⟩
    · intro q hq
      rcases List.mem_cons.1 hq with rfl | hq
      · exact Or.inr rfl
      · exact Or.inl hq
    · intro _ _
      exact ⟨by rw [revAt_updTile ht]; simp, fun h => absurd h hZ⟩
    · intro r c h
      rw [revAt_updTile ht] at h
      simp only [Bool.or_eq_true, decide_eq_true_eq] at h
      rcases h with h | h
      · exact Or.inl h
      · exact Or.inr ⟨(Prod.ext h.1 h.2).symm, hv, hfl0⟩
    · intro r c h
      rw [revAt_updTile ht, h]
      rfl

/-- The invariant of the flood fill along a successful instrumented run. -/
theorem revealTrace_flood (g0 : Grid) (start : Coord) : ∀ (fuel : Nat) (g : Grid)
    (st vis : List Coord) (g' : Grid) (vis' : List Coord) (n : Nat),
    revealTrace fuel g st vis = some (g', vis', n) →
    SameSkel g0 g → (∀ q ∈ st, Pushed g0 start q) → FloodInv g0 start g st vis g' vis' := by
  apply revealTrace_induction
    (fun g st vis g' vis' _ => SameSkel g0 g → (∀ q ∈ st, Pushed g0 start q) →
      FloodInv g0 start g st vis g' vis')
  · intro g vis hs _
    exact floodInv_nil start hs vis
  · intro g p rest vis g1 st1 vis1 g' vis' n hstep ih hs hpush
    obtain ⟨hs1, hv1, hv2, hp1, hr1, hst1, hcl, hsd, hmono⟩ := loopStep_flood hs hstep
    have hpp : Pushed g0 start p := hpush p (List.mem_cons_self _ _)
    have hpush1 : ∀ q ∈ st1, Pushed g0 start q := by
      intro q hq
      rcases hst1 q hq with h | ⟨hfl, hz, hq⟩
      · exact hpush q (List.mem_cons_of_mem _ h)
      · exact Or.inr ⟨p, floodSet_of_pushed hpp hfl, hz, hq⟩
    have inv := ih hs1 hpush1
    have hpv : p ∈ vis' := inv.visMono p hp1
    refine
      { skel := inv.skel
        visMono := fun q hq => inv.visMono q (hv1 q hq)
        stackVisited := ?_
        pushed := ?_
        closed := ?_
        sound := ?_
        revMono := fun r c h => inv.revMono r c (hmono r c h) }
    · intro q hq
      rcases List.mem_cons.1 hq with rfl | hq
      · exact hpv
      · exact inv.stackVisited q (hr1 q hq)
    · intro v hv hnv
      by_cases h1 : v ∈ vis1
      · rcases hv2 v h1 with h | rfl
        · exact absurd h hnv
        · exact hpp
      · exact inv.pushed v hv h1
    · intro v hv hnv hfl
      by_cases h1 : v ∈ vis1
      · rcases hv2 v h1 with h | rfl
        · exact absurd h hnv
        · obtain ⟨hrev, hnb⟩ := hcl hnv hfl
          exact ⟨inv.revMono _ _ hrev, fun hz q hq => inv.stackVisited q (hnb hz q hq)⟩
      · exact inv.closed v hv h1 hfl
    · intro r c h
      rcases inv.sound r c h with h | ⟨h1, h2, h3⟩
      · rcases hsd r c h with h | ⟨e, hnv, hfl⟩
        · exact Or.inl h
        · exact Or.inr ⟨e ▸ hpv, e ▸ hnv, e ▸ hfl⟩
      · exact Or.inr ⟨h1, fun hin => h2 (hv1 _ hin), h3⟩

/-- The flood fill from an in-bounds start of a rectangular grid returns a grid
`g'` and visits a set `vis'` for which the invariant holds from the initial state. -/
theorem revealSafeTilesFrom_flood {g : Grid} (hR : Rect g) {row column : Int}
    (hB : InBounds g row column) :
    ∃ g' vis', revealSafeTilesFrom g row column = some g' ∧ RevealsWhere floodable g g' ∧
      FloodInv g (row, column) g [(row, column)] [] g' vis' := by
  obtain ⟨g', hrun, hrel⟩ := revealSafeTilesFrom_spec hR hB
  have hrun' := hrun
  unfold revealSafeTilesFrom at hrun'
  rw [revealLoop_eq_trace] at hrun'
  cases htr : revealTrace (revealFuel g) g [(row, column)] [] with
  | none => rw [htr] at hrun'; cases hrun'
  | some res =>
    rcases res with ⟨g'', vis', n⟩
    rw [htr] at hrun'
    simp only [Option.map_some', Option.some.injEq] at hrun'
    subst hrun'
    refine ⟨_, vis', hrun, hrel, revealTrace_flood g (row, column) _ g _ [] _ vis' n htr
      ⟨rfl, fun _ _ => rfl⟩ ?_⟩
    intro q hq
    simp only [List.mem_singleton] at hq
    exact Or.inl hq

/-- Every member of the flood set is visited and ends revealed. -/
theorem floodInv_complete {g g' : Grid} {start : Coord} {vis' : List Coord}
    (inv : FloodInv g start g [start] [] g' vis') {q : Coord} (h : FloodSet g start q) :
    q ∈ vis' ∧ revAt g' q.1 q.2 = true := by
  have hmem : ∀ q, FloodSet g start q → q ∈ vis' := by
    intro q h
    induction h with
    | start _ => exact inv.stackVisited start (List.mem_singleton_self _)
    | step s q hs hz hq _ ih =>
      exact (inv.closed s ih (List.not_mem_nil s) (floodSet_floodable hs)).2 hz q hq
  exact ⟨hmem q h, (inv.closed q (hmem q h) (List.not_mem_nil q) (floodSet_floodable h)).1⟩

/-! ## The claims -/

/-- C3: `checkWin` returns `(true, false)` if and only if at least one tile is both
revealed and a mine, whatever the marked flags are. -/
theorem checkWin_loss_iff (g : Grid) :
    checkWin g = (true, false) ↔
      ∃ row ∈ g, ∃ t ∈ row, t.revealed = true ∧ t.mine = true := by
  rw [← hasRevealedMine_iff, checkWin_eq]
  cases hasRevealedMine g with
  | true => simp
  | false =>
    simp only [Bool.false_eq_true, if_false, iff_false]
    split <;> simp

/-- C4: on a grid with no revealed mine, `checkWin` returns `(true, true)` exactly
when (marked mines = mines and marked tiles = mines) or (revealed non-mine tiles
= tiles - mines), and `(false, false)` otherwise.  On the 3x3 grid whose only mine
is at (1,1), marking only (1,1) wins, and so does revealing the 8 other tiles. -/
theorem checkWin_win_iff :
    (∀ g : Grid, (∀ row ∈ g, ∀ t ∈ row, ¬ (t.revealed = true ∧ t.mine = true)) →
      checkWin g =
        if (countTiles (fun t => t.mine && t.marked) g = countTiles (fun t => t.mine) g ∧
              countTiles (fun t => t.marked) g = countTiles (fun t => t.mine) g) ∨
            (countTiles (fun t => t.revealed && !t.mine) g : Int) =
              (countTiles (fun _ => true) g : Int) - (countTiles (fun t => t.mine) g : Int)
        then (true, true) else (false, false)) ∧
    checkWin
      [[⟨false, false, false⟩, ⟨false, false, false⟩, ⟨false, false, false⟩],
       [⟨false, false, false⟩, ⟨true, false, true⟩, ⟨false, false, false⟩],
       [⟨false, false, false⟩, ⟨false, false, false⟩, ⟨false, false, false⟩]] = (true, true) ∧
    checkWin
      [[⟨false, true, false⟩, ⟨false, true, false⟩, ⟨false, true, false⟩],
       [⟨false, true, false⟩, ⟨true, false, false⟩, ⟨false, true, false⟩],
       [⟨false, true, false⟩, ⟨false, true, false⟩, ⟨false, true, false⟩]] = (true, true) := by
  refine ⟨fun g hg => ?_, by decide, by decide⟩
  rw [checkWin_eq]
  have h : hasRevealedMine g = false := by
    cases e : hasRevealedMine g with
    | false => rfl
    | true =>
      obtain ⟨row, hrow, t, ht, h1⟩ := (hasRevealedMine_iff g).1 e
      exact absurd h1 (hg row hrow t ht)
  simp only [h, Bool.false_eq_true, if_false]

/-- Witness for C4: a 1x2 grid with a hidden mine and a hidden safe tile is still
in play. -/
theorem checkWin_win_iff_witness :
    checkWin [[⟨true, false, false⟩, ⟨false, false, false⟩]] = (false, false) := by
  rw [checkWin_win_iff.1 [[⟨true, false, false⟩, ⟨false, false, false⟩]] (by decide)]
  decide

/-- C5: for `R ≥ 1` and `C ≥ 1` and any prior grid, after `generateGrid(R, C)`
`getGridSize()` returns `(R, C)`, the grid has `R` rows of `C` tiles each (`R * C`
tiles), and every tile has `mine`, `revealed` and `marked` all false. -/
theorem generateGrid_spec (prior : Grid) (R C : Int) (hR : 1 ≤ R) (hC : 1 ≤ C) :
    ∃ rows cols : Nat, (rows : Int) = R ∧ (cols : Int) = C ∧
      getGridSize (generateGrid prior R C) = some (rows, cols) ∧
      (generateGrid prior R C).length = rows ∧
      (∀ row ∈ generateGrid prior R C, row.length = cols) ∧
      countTiles (fun _ => true) (generateGrid prior R C) = rows * cols ∧
      ∀ row ∈ generateGrid prior R C, ∀ t ∈ row,
        t.mine = false ∧ t.revealed = false ∧ t.marked = false := by
  refine ⟨R.toNat, C.toNat, by omega, by omega, ?_⟩
  obtain ⟨n, hn⟩ : ∃ n, R.toNat = n + 1 := ⟨R.toNat - 1, by omega⟩
  simp only [generateGrid, generateRows_eq, generateRow_eq]
  refine ⟨?_, by simp, ?_, ?_, ?_⟩
  · rw [hn, List.replicate_succ]
    simp [getGridSize]
  · intro row hrow
    rw [(List.mem_replicate.1 hrow).2]
    simp
  · rw [countTiles_replicate]
    simp
  · intro row hrow t ht
    rw [(List.mem_replicate.1 hrow).2] at ht
    rw [(List.mem_replicate.1 ht).2]
    exact ⟨rfl, rfl, rfl⟩

/-- Witness for C5 at `generateGrid(2, 3)` over a prior 1x1 grid. -/
theorem generateGrid_spec_witness :
    ∃ rows cols : Nat, (rows : Int) = 2 ∧ (cols : Int) = 3 ∧
      getGridSize (generateGrid [[⟨true, true, false⟩]] 2 3) = some (rows, cols) ∧
      (generateGrid [[⟨true, true, false⟩]] 2 3).length = rows ∧
      (∀ row ∈ generateGrid [[⟨true, true, false⟩]] 2 3, row.length = cols) ∧
      countTiles (fun _ => true) (generateGrid [[⟨true, true, false⟩]] 2 3) = rows * cols ∧
      ∀ row ∈ generateGrid [[⟨true, true, false⟩]] 2 3, ∀ t ∈ row,
        t.mine = false ∧ t.revealed = false ∧ t.marked = false :=
  generateGrid_spec [[⟨true, true, false⟩]] 2 3 (by decide) (by decide)

/-- C6: `revealSafeTilesFrom` is idempotent: on a rectangular grid and an in-bounds
coordinate the call returns a grid, and a second call from the same coordinate
returns that same grid. -/
theorem revealSafeTilesFrom_idempotent (g : Grid) (row column : Int) (hR : Rect g)
    (hB : InBounds g row column) :
    ∃ g', revealSafeTilesFrom g row column = some g' ∧
      revealSafeTilesFrom g' row column = some g' := by
  obtain ⟨g', hrun, hrel⟩ := revealSafeTilesFrom_spec hR hB
  refine ⟨g', hrun, ?_⟩
  have hsk : SameSkel g g' := sameSkel_of_revealsWhere hrel
  unfold revealSafeTilesFrom at hrun ⊢
  obtain ⟨h', X, e1, e2, e3, e4⟩ := revealLoop_lockstep _ g g' _ _ g' hsk hrun
  have hfuel : revealFuel g' = revealFuel g := by
    rw [revealFuel_eq, revealFuel_eq, cellCount_of_shape hrel.1]
  rw [hfuel, e1]
  congr 1
  apply grid_ext _ _ e2.1.symm
  intro r c
  apply getTile_eq_of_skel_rev (e2.2 r c).symm
  rw [e4, e3, Bool.or_assoc, Bool.or_self]

/-- Witness for C6 on a 2x3 grid with one mine and one flag, started at (1,2). -/
theorem revealSafeTilesFrom_idempotent_witness :
    ∃ g', revealSafeTilesFrom
        [[⟨true, false, false⟩, ⟨false, false, false⟩, ⟨false, false, false⟩],
         [⟨false, false, true⟩, ⟨false, false, false⟩, ⟨false, false, false⟩]] 1 2 = some g' ∧
      revealSafeTilesFrom g' 1 2 = some g' :=
  revealSafeTilesFrom_idempotent _ 1 2 (by decide) (by decide)

/-- C7: when `mark` is true or the target tile is marked, `guessTile` yields the
original grid with only the target tile's `marked` flag negated and returns
`checkWin` of that grid; two consecutive calls `guessTile(row, column, true)`
restore the original grid. -/
theorem guessTile_mark (g : Grid) (row column : Int) (mark : Bool) (rnd rnd' : Nat → Nat)
    (t : Tile) (ht : getTile g row column = some t) :
    (mark = true ∨ t.marked = true →
      ∃ g', guessTile g row column mark rnd = some (g', checkWin g') ∧
        shape g' = shape g ∧
        getTile g' row column = some { t with marked := !t.marked } ∧
        ∀ r c, ¬ (row = r ∧ column = c) → getTile g' r c = getTile g r c) ∧
    (∃ g1 o1 o2, guessTile g row column true rnd = some (g1, o1) ∧
      guessTile g1 row column true rnd' = some (g, o2)) := by
  have hupd : getTile (updTile g row column (setMarked (!t.marked))) row column =
      some { t with marked := !t.marked } := by
    rw [getTile_updTile_same, ht]; rfl
  constructor
  · intro hm
    refine ⟨updTile g row column (setMarked (!t.marked)), ?_, shape_updTile _ _ _ _, hupd,
      fun r c hne => getTile_updTile_ne _ _ _ _ _ _ hne⟩
    have hc : (mark || t.marked) = true := by
      rcases hm with h | h <;> simp [h]
    simp only [guessTile, ht, hc, if_true]
  · have hback : updTile (updTile g row column (setMarked (!t.marked))) row column
        (setMarked (!(!t.marked))) = g := by
      apply grid_ext
      · rw [shape_updTile, shape_updTile]
      · intro r c
        by_cases e : row = r ∧ column = c
        · obtain ⟨rfl, rfl⟩ := e
          rw [getTile_updTile_same, getTile_updTile_same, ht]
          rcases t with ⟨m, v, k⟩
          simp [setMarked]
        · rw [getTile_updTile_ne _ _ _ _ _ _ e, getTile_updTile_ne _ _ _ _ _ _ e]
    refine ⟨updTile g row column (setMarked (!t.marked)),
      checkWin (updTile g row column (setMarked (!t.marked))), checkWin g, ?_, ?_⟩
    · simp only [guessTile, ht, Bool.true_or, if_true]
    · simp only [guessTile, hupd, Bool.true_or, if_true, hback]

/-- Witness for C7: un-flagging the flagged tile (0,1) of a 1x2 grid by a plain click. -/
theorem guessTile_mark_witness :
    (false = true ∨ (⟨false, false, true⟩ : Tile).marked = true →
      ∃ g', guessTile [[⟨true, false, false⟩, ⟨false, false, true⟩]] 0 1 false (fun _ => 0)
          = some (g', checkWin g') ∧
        shape g' = shape [[⟨true, false, false⟩, ⟨false, false, true⟩]] ∧
        getTile g' 0 1 = some { (⟨false, false, true⟩ : Tile) with
          marked := !(⟨false, false, true⟩ : Tile).marked } ∧
        ∀ r c, ¬ ((0 : Int) = r ∧ (1 : Int) = c) →
          getTile g' r c = getTile [[⟨true, false, false⟩, ⟨false, false, true⟩]] r c) ∧
    (∃ g1 o1 o2, guessTile [[⟨true, false, false⟩, ⟨false, false, true⟩]] 0 1 true (fun _ => 0)
        = some (g1, o1) ∧
      guessTile g1 0 1 true (fun _ => 0)
        = some ([[⟨true, false, false⟩, ⟨false, false, true⟩]], o2)) :=
  guessTile_mark [[⟨true, false, false⟩, ⟨false, false, true⟩]] 0 1 false (fun _ => 0)
    (fun _ => 0) ⟨false, false, true⟩ (by decide)

/-- C10: on a grid with at least one revealed tile, `guessTile(row, column, false)`
on an unmarked, unrevealed mine sets `revealed` on that tile, changes no other
tile and no other flag, and returns `(true, false)`. -/
theorem guessTile_hidden_mine (g : Grid) (row column : Int) (rnd : Nat → Nat) (t : Tile)
    (ht : getTile g row column = some t) (hk : t.marked = false) (hv : t.revealed = false)
    (hm : t.mine = true)
    (hrev : ∃ (r c : Int) (t' : Tile), getTile g r c = some t' ∧ t'.revealed = true) :
    ∃ g', guessTile g row column false rnd = some (g', (true, false)) ∧
      shape g' = shape g ∧
      getTile g' row column = some { t with revealed := true } ∧
      ∀ r c, ¬ (row = r ∧ column = c) → getTile g' r c = getTile g r c := by
  have hupd : getTile (updTile g row column (setRevealed true)) row column =
      some { t with revealed := true } := by
    rw [getTile_updTile_same, ht]; rfl
  refine ⟨updTile g row column (setRevealed true), ?_, shape_updTile _ _ _ _, hupd,
    fun r c hne => getTile_updTile_ne _ _ _ _ _ _ hne⟩
  have he : isGridEmpty g = false := (isGridEmpty_eq_false_iff g).2 hrev
  have hw : checkWin (updTile g row column (setRevealed true)) = (true, false) :=
    checkWin_of_revealed_mine hupd rfl hm
  simp [guessTile, ht, hk, hv, hm, he, hw]

/-- Witness for C10: clicking the hidden mine (0,0) of a 1x2 grid whose other tile
is revealed. -/
theorem guessTile_hidden_mine_witness :
    ∃ g', guessTile [[⟨true, false, false⟩, ⟨false, true, false⟩]] 0 0 false (fun _ => 0)
        = some (g', (true, false)) ∧
      shape g' = shape [[⟨true, false, false⟩, ⟨false, true, false⟩]] ∧
      getTile g' 0 0 = some { (⟨true, false, false⟩ : Tile) with revealed := true } ∧
      ∀ r c, ¬ ((0 : Int) = r ∧ (0 : Int) = c) →
        getTile g' r c = getTile [[⟨true, false, false⟩, ⟨false, true, false⟩]] r c :=
  guessTile_hidden_mine [[⟨true, false, false⟩, ⟨false, true, false⟩]] 0 0 (fun _ => 0)
    ⟨true, false, false⟩ (by decide) rfl rfl rfl ⟨0, 1, ⟨false, true, false⟩, by decide, rfl⟩

/-- C2: on a rectangular grid with at least one row and one column, for every
integer `n` and every outcome of the shuffle, `placeMines(n)` returns and raises
the number of mines by exactly `min (max n 0) F`, `F` being the number of
non-mine tiles before the call; every mine stays a mine, no `revealed` or
`marked` flag changes, and `n ≤ 0` leaves the grid unchanged. -/
theorem placeMines_count (g : Grid) (n : Int) (rnd : Nat → Nat) (hR : Rect g)
    (hrows : 1 ≤ (shape g).length) (_hcols : 1 ≤ (shape g).headD 0) :
    ∃ g', placeMines g n rnd = some g' ∧
      (countTiles (fun t => t.mine) g' : Int) =
        (countTiles (fun t => t.mine) g : Int) +
          min (max n 0) (countTiles (fun t => !t.mine) g : Int) ∧
      shape g' = shape g ∧
      (∀ r c t, getTile g r c = some t →
        ∃ t', getTile g' r c = some t' ∧ (t.mine = true → t'.mine = true) ∧
          t'.revealed = t.revealed ∧ t'.marked = t.marked) ∧
      (n ≤ 0 → g' = g) := by
  have hne : shape g ≠ [] := by
    intro e
    rw [e] at hrows
    simp at hrows
  obtain ⟨g', hrun, hadd, hcount, hz⟩ := placeMines_spec hR hne n rnd
  refine ⟨g', hrun, ?_, hadd.1, ?_, hz⟩
  · rw [hcount]
    omega
  · intro r c t ht
    obtain ⟨t', ht', h1, h2, h3⟩ := minesAdded_tile hadd ht
    exact ⟨t', ht', h3, h1, h2⟩

/-- Witness for C2: `placeMines(5)` on a 2x2 grid that already holds one mine. -/
theorem placeMines_count_witness :
    ∃ g', placeMines [[⟨true, false, false⟩, ⟨false, true, false⟩],
        [⟨false, false, true⟩, ⟨false, false, false⟩]] 5 (fun i => i) = some g' ∧
      (countTiles (fun t => t.mine) g' : Int) =
        (countTiles (fun t => t.mine) [[⟨true, false, false⟩, ⟨false, true, false⟩],
          [⟨false, false, true⟩, ⟨false, false, false⟩]] : Int) +
          min (max 5 0) (countTiles (fun t => !t.mine)
            [[⟨true, false, false⟩, ⟨false, true, false⟩],
              [⟨false, false, true⟩, ⟨false, false, false⟩]] : Int) ∧
      shape g' = shape [[⟨true, false, false⟩, ⟨false, true, false⟩],
        [⟨false, false, true⟩, ⟨false, false, false⟩]] ∧
      (∀ r c t, getTile [[⟨true, false, false⟩, ⟨false, true, false⟩],
          [⟨false, false, true⟩, ⟨false, false, false⟩]] r c = some t →
        ∃ t', getTile g' r c = some t' ∧ (t.mine = true → t'.mine = true) ∧
          t'.revealed = t.revealed ∧ t'.marked = t.marked) ∧
      ((5 : Int) ≤ 0 → g' = [[⟨true, false, false⟩, ⟨false, true, false⟩],
        [⟨false, false, true⟩, ⟨false, false, false⟩]]) :=
  placeMines_count _ 5 (fun i => i) (by decide) (by decide) (by decide)

/-- C8: reveal is irreversible: on a rectangular grid and an in-bounds coordinate,
for every `mark` and every outcome of the shuffle, `guessTile` returns and every
tile that was revealed before the call is revealed after it; the same holds for
`placeMines` and `revealSafeTilesFrom`. -/
theorem reveal_irreversible (g : Grid) (row column : Int) (mark : Bool) (n : Int)
    (rnd : Nat → Nat) (hR : Rect g) (hB : InBounds g row column) :
    (∃ g' res, guessTile g row column mark rnd = some (g', res) ∧
      ∀ r c t, getTile g r c = some t → t.revealed = true →
        ∃ t', getTile g' r c = some t' ∧ t'.revealed = true) ∧
    (∃ g', placeMines g n rnd = some g' ∧
      ∀ r c t, getTile g r c = some t → t.revealed = true →
        ∃ t', getTile g' r c = some t' ∧ t'.revealed = true) ∧
    (∃ g', revealSafeTilesFrom g row column = some g' ∧
      ∀ r c t, getTile g r c = some t → t.revealed = true →
        ∃ t', getTile g' r c = some t' ∧ t'.revealed = true) := by
  refine ⟨?_, ?_, ?_⟩
  · obtain ⟨t, g', ht, hrun, hcase⟩ := guessTile_cases hR hB mark rnd
    refine ⟨g', _, hrun, ?_⟩
    intro r c t0 ht0 hrev
    rcases hcase with ⟨_, rfl⟩ | ⟨_, _, g2, _, hadd, _, _, hrel⟩ | ⟨_, _, hrel⟩
    · rw [getTile_updTile]
      by_cases e : row = r ∧ column = c
      · obtain ⟨rfl, rfl⟩ := e
        rw [ht] at ht0
        cases ht0
        exact ⟨setMarked (!t.marked) t, by simp [ht], hrev⟩
      · exact ⟨t0, by simp [e, ht0], hrev⟩
    · have h1 : ∃ t1, getTile (updTile (updTile g row column (setMine false)) row column
          (setRevealed true)) r c = some t1 ∧ t1.revealed = true := by
        rw [getTile_firstClick ht]
        by_cases e : row = r ∧ column = c
        · exact ⟨setRevealed true (setMine false t), by simp [e], rfl⟩
        · exact ⟨t0, by simp [e, ht0], hrev⟩
      obtain ⟨t1, ht1, hrev1⟩ := h1
      obtain ⟨t2, ht2, hrev2, _, _⟩ := minesAdded_tile hadd ht1
      obtain ⟨t3, ht3, _, _, hkeep, _⟩ := revealsWhere_tile hrel ht2
      exact ⟨t3, ht3, hkeep (hrev2.trans hrev1)⟩
    · obtain ⟨t', ht', _, _, hkeep, _⟩ := revealsWhere_tile hrel ht0
      exact ⟨t', ht', hkeep hrev⟩
  · obtain ⟨g', hrun, hadd, _, _⟩ := placeMines_spec hR (shape_ne_nil_of_inBounds hB) n rnd
    refine ⟨g', hrun, ?_⟩
    intro r c t0 ht0 hrev
    obtain ⟨t', ht', hrev', _, _⟩ := minesAdded_tile hadd ht0
    exact ⟨t', ht', hrev'.trans hrev⟩
  · obtain ⟨g', hrun, hrel⟩ := revealSafeTilesFrom_spec hR hB
    refine ⟨g', hrun, ?_⟩
    intro r c t0 ht0 hrev
    obtain ⟨t', ht', _, _, hkeep, _⟩ := revealsWhere_tile hrel ht0
    exact ⟨t', ht', hkeep hrev⟩

/-- Witness for C8: a chord click on the revealed tile (0,1) of a 2x2 grid. -/
theorem reveal_irreversible_witness :
    (∃ g' res, guessTile [[⟨true, false, true⟩, ⟨false, true, false⟩],
        [⟨false, false, false⟩, ⟨false, false, false⟩]] 0 1 false (fun i => i) = some (g', res) ∧
      ∀ r c t, getTile [[⟨true, false, true⟩, ⟨false, true, false⟩],
          [⟨false, false, false⟩, ⟨false, false, false⟩]] r c = some t → t.revealed = true →
        ∃ t', getTile g' r c = some t' ∧ t'.revealed = true) ∧
    (∃ g', placeMines [[⟨true, false, true⟩, ⟨false, true, false⟩],
        [⟨false, false, false⟩, ⟨false, false, false⟩]] 2 (fun i => i) = some g' ∧
      ∀ r c t, getTile [[⟨true, false, true⟩, ⟨false, true, false⟩],
          [⟨false, false, false⟩, ⟨false, false, false⟩]] r c = some t → t.revealed = true →
        ∃ t', getTile g' r c = some t' ∧ t'.revealed = true) ∧
    (∃ g', revealSafeTilesFrom [[⟨true, false, true⟩, ⟨false, true, false⟩],
        [⟨false, false, false⟩, ⟨false, false, false⟩]] 0 1 = some g' ∧
      ∀ r c t, getTile [[⟨true, false, true⟩, ⟨false, true, false⟩],
          [⟨false, false, false⟩, ⟨false, false, false⟩]] r c = some t → t.revealed = true →
        ∃ t', getTile g' r c = some t' ∧ t'.revealed = true) :=
  reveal_irreversible _ 0 1 false 2 (fun i => i) (by decide) (by decide)

/-- C9: marked tiles are protected from reveal: on a rectangular grid and an
in-bounds coordinate, for every `mark` and every outcome of the shuffle,
`guessTile` returns and every tile that was marked and unrevealed before the call
is unrevealed after it; and `guessTile(row, column, false)` on a marked hidden
tile un-marks that tile and changes nothing else. -/
theorem marked_protected (g : Grid) (row column : Int) (mark : Bool) (rnd : Nat → Nat)
    (hR : Rect g) (hB : InBounds g row column) :
    (∃ g' res, guessTile g row column mark rnd = some (g', res) ∧
      ∀ r c t, getTile g r c = some t → t.marked = true → t.revealed = false →
        ∃ t', getTile g' r c = some t' ∧ t'.revealed = false) ∧
    (∀ t0, getTile g row column = some t0 → t0.marked = true → t0.revealed = false →
      ∃ g', guessTile g row column false rnd = some (g', checkWin g') ∧
        shape g' = shape g ∧
        getTile g' row column = some { t0 with marked := false } ∧
        ∀ r c, ¬ (row = r ∧ column = c) → getTile g' r c = getTile g r c) := by
  constructor
  · obtain ⟨t, g', ht, hrun, hcase⟩ := guessTile_cases hR hB mark rnd
    refine ⟨g', _, hrun, ?_⟩
    intro r c t0 ht0 hmk hrev
    rcases hcase with ⟨_, rfl⟩ | ⟨hunm, _, g2, _, hadd, _, _, hrel⟩ | ⟨_, _, hrel⟩
    · rw [getTile_updTile]
      by_cases e : row = r ∧ column = c
      · obtain ⟨rfl, rfl⟩ := e
        rw [ht] at ht0
        cases ht0
        exact ⟨setMarked (!t.marked) t, by simp [ht], hrev⟩
      · exact ⟨t0, by simp [e, ht0], hrev⟩
    · have hne : ¬ (row = r ∧ column = c) := by
        rintro ⟨rfl, rfl⟩
        rw [ht] at ht0
        cases ht0
        simp [hmk] at hunm
      have ht1 : getTile (updTile (updTile g row column (setMine false)) row column
          (setRevealed true)) r c = some t0 := by
        rw [getTile_firstClick ht]
        simp [hne, ht0]
      obtain ⟨t2, ht2, hrev2, hmk2, _⟩ := minesAdded_tile hadd ht1
      obtain ⟨t3, ht3, _, _, _, hnew⟩ := revealsWhere_tile hrel ht2
      refine ⟨t3, ht3, ?_⟩
      cases h3 : t3.revealed with
      | false => rfl
      | true =>
        rcases hnew h3 with h | h
        · rw [hrev2, hrev] at h; cases h
        · simp [floodable, hmk2, hmk] at h
    · obtain ⟨t', ht', _, _, _, hnew⟩ := revealsWhere_tile hrel ht0
      refine ⟨t', ht', ?_⟩
      cases h3 : t'.revealed with
      | false => rfl
      | true =>
        rcases hnew h3 with h | h
        · rw [hrev] at h; cases h
        · simp [unmarked, hmk] at h
  · intro t0 ht0 hmk _
    refine ⟨updTile g row column (setMarked (!t0.marked)), ?_, shape_updTile _ _ _ _, ?_,
      fun r c hne => getTile_updTile_ne _ _ _ _ _ _ hne⟩
    · simp only [guessTile, ht0, hmk, Bool.or_true, if_true]
    · rw [getTile_updTile_same, ht0, hmk]
      rfl

/-- Witness for C9: a first click on the mine (0,0) of a 2x2 grid whose tile (1,1)
is flagged. -/
theorem marked_protected_witness :
    (∃ g' res, guessTile [[⟨true, false, false⟩, ⟨false, false, false⟩],
        [⟨false, false, false⟩, ⟨false, false, true⟩]] 0 0 false (fun i => i) = some (g', res) ∧
      ∀ r c t, getTile [[⟨true, false, false⟩, ⟨false, false, false⟩],
          [⟨false, false, false⟩, ⟨false, false, true⟩]] r c = some t →
        t.marked = true → t.revealed = false →
        ∃ t', getTile g' r c = some t' ∧ t'.revealed = false) ∧
    (∀ t0, getTile [[⟨true, false, false⟩, ⟨false, false, false⟩],
        [⟨false, false, false⟩, ⟨false, false, true⟩]] 0 0 = some t0 →
      t0.marked = true → t0.revealed = false →
      ∃ g', guessTile [[⟨true, false, false⟩, ⟨false, false, false⟩],
          [⟨false, false, false⟩, ⟨false, false, true⟩]] 0 0 false (fun i => i)
          = some (g', checkWin g') ∧
        shape g' = shape [[⟨true, false, false⟩, ⟨false, false, false⟩],
          [⟨false, false, false⟩, ⟨false, false, true⟩]] ∧
        getTile g' 0 0 = some { t0 with marked := false } ∧
        ∀ r c, ¬ ((0 : Int) = r ∧ (0 : Int) = c) →
          getTile g' r c = getTile [[⟨true, false, false⟩, ⟨false, false, false⟩],
            [⟨false, false, false⟩, ⟨false, false, true⟩]] r c) :=
  marked_protected _ 0 0 false (fun i => i) (by decide) (by decide)

/-- C1 (evaluation of the code): the first click can be a loss.  On the 1x1 grid
produced by `generateGrid(1, 1)` and `placeMines(1)`, whatever the shuffles draw,
`guessTile(0, 0, false)` relocates the mine onto the clicked tile itself and
returns `(true, false)`; on a 2x2 grid whose only mine is at (0,0) the same
happens when the shuffle leaves (0,0) at the end of the candidate list. -/
theorem first_click_loss :
    (∀ rnd rnd' : Nat → Nat, ∃ g1,
      placeMines (generateGrid [] 1 1) 1 rnd = some g1 ∧
      g1 = [[⟨true, false, false⟩]] ∧
      guessTile g1 0 0 false rnd' = some ([[⟨true, true, false⟩]], (true, false))) ∧
    guessTile [[⟨true, false, false⟩, ⟨false, false, false⟩],
        [⟨false, false, false⟩, ⟨false, false, false⟩]] 0 0 false
        (fun i => if i = 3 then 0 else i) =
      some ([[⟨true, true, false⟩, ⟨false, false, false⟩],
        [⟨false, false, false⟩, ⟨false, false, false⟩]], (true, false)) := by
  refine ⟨fun rnd rnd' => ⟨[[⟨true, false, false⟩]], rfl, rfl, rfl⟩, ?_⟩
  decide

/-- C14: on the 5x5 grid whose only mine is at (0,0), with every tile hidden and
unmarked, the single call `guessTile(4, 4, false)` returns `(true, true)` and
leaves all 24 non-mine tiles revealed and the mine at (0,0) unrevealed. -/
theorem guessTile_scenario_5x5 :
    ∀ rnd : Nat → Nat,
      ∃ g', guessTile (updTile (generateGrid [] 5 5) 0 0 (setMine true)) 4 4 false rnd
          = some (g', (true, true)) ∧
        shape g' = [5, 5, 5, 5, 5] ∧
        countTiles (fun t => t.revealed && !t.mine) g' = 24 ∧
        countTiles (fun t => t.mine) g' = 1 ∧
        getTile g' 0 0 = some ⟨true, false, false⟩ ∧
        ∀ row ∈ g', ∀ t ∈ row, t.mine = false → t.revealed = true := by
  intro rnd
  refine ⟨(⟨true, false, false⟩ :: List.replicate 4 ⟨false, true, false⟩) ::
    List.replicate 4 (List.replicate 5 ⟨false, true, false⟩), ?_, ?_, ?_, ?_, ?_, ?_⟩
  · rfl
  · decide
  · decide
  · decide
  · decide
  · decide

/-- C17: the chord rule can detonate a mine.  On the 1x3 grid with a hidden mine
at (0,0), (0,1) revealed and a flag on the safe tile (0,2), no mine is revealed,
the tile (0,1) is revealed, unmarked and not a mine, its count of
marked-or-revealed-mine neighbours equals its surrounding mine count, and
`guessTile(0, 1, false)` reveals the mine and returns `(true, false)`. -/
theorem chord_can_detonate :
    ∃ (g : Grid) (row column : Int) (t : Tile) (nb mines : List Coord) (marks : Nat)
      (g' : Grid),
      Rect g ∧ InBounds g row column ∧ hasRevealedMine g = false ∧
      getTile g row column = some t ∧ t.revealed = true ∧ t.marked = false ∧ t.mine = false ∧
      getSurroundingTiles g row column true = some nb ∧ countMarks g nb = some marks ∧
      getSurroundingMines g row column = some mines ∧ marks = mines.length ∧
      (∀ rnd : Nat → Nat, guessTile g row column false rnd = some (g', (true, false))) ∧
      getTile g' 0 0 = some ⟨true, true, false⟩ ∧ hasRevealedMine g' = true :=
  ⟨[[⟨true, false, false⟩, ⟨false, true, false⟩, ⟨false, false, true⟩]], 0, 1,
    ⟨false, true, false⟩, [(0, 0), (0, 2)], [(0, 0)], 1,
    [[⟨true, true, false⟩, ⟨false, true, false⟩, ⟨false, false, true⟩]],
    by decide, by decide, by decide, by decide, rfl, rfl, rfl, by decide, by decide,
    by decide, rfl, fun _ => rfl, by decide, by decide⟩

/-- C18: `guessTile` preserves the number of mines: on a rectangular grid and an
in-bounds coordinate, for every `mark` and every outcome of the shuffle, the call
returns and the number of mine tiles after it equals the number before it. -/
theorem guessTile_mine_count (g : Grid) (row column : Int) (mark : Bool) (rnd : Nat → Nat)
    (hR : Rect g) (hB : InBounds g row column) :
    ∃ g' res, guessTile g row column mark rnd = some (g', res) ∧
      countTiles (fun t => t.mine) g' = countTiles (fun t => t.mine) g := by
  obtain ⟨t, g', ht, hrun, hcase⟩ := guessTile_cases hR hB mark rnd
  refine ⟨g', _, hrun, ?_⟩
  rcases hcase with ⟨_, rfl⟩ | ⟨_, hfirst, g2, _, hadd, hcount, _, hrel⟩ | ⟨_, _, hrel⟩
  · have := countTiles_updTile (fun t => t.mine) ht (setMarked (!t.marked))
    simp only [setMarked] at this
    omega
  · have hmine : t.mine = true := by
      simp only [Bool.and_eq_true] at hfirst
      exact hfirst.1
    have ha := countTiles_updTile (fun t => t.mine) ht (setMine false)
    have hta : getTile (updTile g row column (setMine false)) row column =
        some (setMine false t) := by
      rw [getTile_updTile_same, ht]; rfl
    have hb := countTiles_updTile (fun t => t.mine) hta (setRevealed true)
    simp only [hmine, setMine, setRevealed, Bool.false_eq_true, if_true, if_false,
      Nat.add_zero] at ha hb
    have hs1 : shape (updTile (updTile g row column (setMine false)) row column
        (setRevealed true)) = shape g := by
      rw [shape_updTile, shape_updTile]
    have htot : countTiles (fun _ => true) (updTile (updTile g row column (setMine false))
        row column (setRevealed true)) = countTiles (fun _ => true) g := by
      rw [countTiles_true, countTiles_true, hs1]
    have h1 := countTiles_mine_add g
    have h2 := countTiles_mine_add (updTile (updTile g row column (setMine false)) row column
      (setRevealed true))
    rw [countTiles_mine_of_revealsWhere hrel, hcount]
    omega
  · exact countTiles_mine_of_revealsWhere hrel

/-- Witness for C18: a first click on the mine (0,0) of a 2x2 grid. -/
theorem guessTile_mine_count_witness :
    ∃ g' res, guessTile [[⟨true, false, false⟩, ⟨false, false, false⟩],
        [⟨false, false, false⟩, ⟨true, false, true⟩]] 0 0 false (fun i => i) = some (g', res) ∧
      countTiles (fun t => t.mine) g' =
        countTiles (fun t => t.mine) [[⟨true, false, false⟩, ⟨false, false, false⟩],
          [⟨false, false, false⟩, ⟨true, false, true⟩]] :=
  guessTile_mine_count _ 0 0 false (fun i => i) (by decide) (by decide)

/-- C20: loss is absorbing: on a rectangular grid in which some revealed tile is a
mine, every `guessTile` call with an in-bounds coordinate, any `mark` and any
outcome of the shuffle returns `(true, false)` and leaves a revealed mine; hence
every sequence of such calls returns, and every pair it reports is `(true, false)`. -/
theorem loss_absorbing (g : Grid) (hR : Rect g)
    (hlost : ∃ (r c : Int) (t : Tile), getTile g r c = some t ∧
      (t.revealed = true ∧ t.mine = true)) :
    (∀ (row column : Int) (mark : Bool) (rnd : Nat → Nat), InBounds g row column →
      ∃ g', guessTile g row column mark rnd = some (g', (true, false)) ∧
        ∃ (r c : Int) (t : Tile), getTile g' r c = some t ∧
          (t.revealed = true ∧ t.mine = true)) ∧
    (∀ moves : List (Int × Int × Bool × (Nat → Nat)),
      (∀ m ∈ moves, InBounds g m.1 m.2.1) →
      ∃ g' outs, guessMany g moves = some (g', outs) ∧ outs.length = moves.length ∧
        (∀ o ∈ outs, o = (true, false)) ∧
        ∃ (r c : Int) (t : Tile), getTile g' r c = some t ∧
          (t.revealed = true ∧ t.mine = true)) := by
  constructor
  · intro row column mark rnd hB
    obtain ⟨g', hrun, _, hl⟩ := guessTile_lost hR hB mark rnd hlost
    exact ⟨g', hrun, hl⟩
  · intro moves
    induction moves generalizing g with
    | nil => intro _; exact ⟨g, [], rfl, rfl, by simp, hlost⟩
    | cons m rest ih =>
      intro hB
      rcases m with ⟨row, column, mark, rnd⟩
      obtain ⟨g1, hrun, hs, hl⟩ :=
        guessTile_lost hR (hB _ (List.mem_cons_self _ _)) mark rnd hlost
      obtain ⟨g2, outs, hrest, hlen, hall, hl2⟩ := ih g1 (Rect_of_shape hs hR) hl
        (fun m hm => InBounds_of_shape hs (hB m (List.mem_cons_of_mem _ hm)))
      refine ⟨g2, (true, false) :: outs, ?_, by simp [hlen], ?_, hl2⟩
      · simp only [guessMany, hrun, hrest]
      · intro o ho
        rcases List.mem_cons.1 ho with rfl | ho
        · rfl
        · exact hall o ho

/-- Witness for C20: a lost 1x3 game; a flag toggle and a click both report the loss. -/
theorem loss_absorbing_witness :
    (∀ (row column : Int) (mark : Bool) (rnd : Nat → Nat),
      InBounds [[⟨true, true, false⟩, ⟨false, true, false⟩, ⟨false, false, false⟩]] row column →
      ∃ g', guessTile [[⟨true, true, false⟩, ⟨false, true, false⟩, ⟨false, false, false⟩]]
          row column mark rnd = some (g', (true, false)) ∧
        ∃ (r c : Int) (t : Tile), getTile g' r c = some t ∧
          (t.revealed = true ∧ t.mine = true)) ∧
    (∀ moves : List (Int × Int × Bool × (Nat → Nat)),
      (∀ m ∈ moves,
        InBounds [[⟨true, true, false⟩, ⟨false, true, false⟩, ⟨false, false, false⟩]]
          m.1 m.2.1) →
      ∃ g' outs, guessMany [[⟨true, true, false⟩, ⟨false, true, false⟩, ⟨false, false, false⟩]]
          moves = some (g', outs) ∧ outs.length = moves.length ∧
        (∀ o ∈ outs, o = (true, false)) ∧
        ∃ (r c : Int) (t : Tile), getTile g' r c = some t ∧
          (t.revealed = true ∧ t.mine = true)) :=
  loss_absorbing [[⟨true, true, false⟩, ⟨false, true, false⟩, ⟨false, false, false⟩]]
    (by decide) ⟨0, 0, ⟨true, true, false⟩, by decide, rfl, rfl⟩

/-- C12: on a rectangular grid with `R ≥ 1` rows and `C` columns, for all integers
`row`, `column`, `getSurroundingTiles(row, column, allowDiagonals)` returns exactly
the coordinates `(row + dr, column + dc)` with `dr, dc ∈ {-1, 0, 1}`,
`(dr, dc) ≠ (0, 0)`, `0 ≤ row + dr < R`, `0 ≤ column + dc < C` (and `dr = 0` or
`dc = 0` when diagonals are not allowed), in row-major order of `(dr, dc)`, without
duplicates; the result never contains `(row, column)` and has at most 8 entries
(4 without diagonals). -/
theorem getSurroundingTiles_spec (g : Grid) (row column : Int) (allowDiagonals : Bool)
    (_hR : Rect g) (hrows : 1 ≤ (shape g).length) :
    ∃ l, getSurroundingTiles g row column allowDiagonals = some l ∧
      l = (rowMajorOffsets.filter
            (isNeighbourOffset (shape g).length ((shape g).headD 0) row column
              allowDiagonals)).map (fun o => (row + o.1, column + o.2)) ∧
      (∀ q : Coord, q ∈ l ↔ ∃ dr dc : Int,
        (dr = -1 ∨ dr = 0 ∨ dr = 1) ∧ (dc = -1 ∨ dc = 0 ∨ dc = 1) ∧ ¬ (dr = 0 ∧ dc = 0) ∧
        (0 ≤ row + dr ∧ row + dr < (shape g).length) ∧
        (0 ≤ column + dc ∧ column + dc < (shape g).headD 0) ∧
        (allowDiagonals = false → dr = 0 ∨ dc = 0) ∧ q = (row + dr, column + dc)) ∧
      l.Nodup ∧ (row, column) ∉ l ∧ l.length ≤ 8 ∧ (allowDiagonals = false → l.length ≤ 4) := by
  have hne : shape g ≠ [] := by
    intro e
    rw [e] at hrows
    simp at hrows
  have hget := getSurroundingTiles_eq g hne row column allowDiagonals
  have hlist := filterMap_neighbourAt (shape g).length ((shape g).headD 0) row column
    allowDiagonals offsets
  rw [offsets_eq_rowMajor] at hlist
  rw [offsets_eq_rowMajor, hlist] at hget
  have hmem : ∀ q : Coord, q ∈ (rowMajorOffsets.filter
      (isNeighbourOffset (shape g).length ((shape g).headD 0) row column
        allowDiagonals)).map (fun o => (row + o.1, column + o.2)) ↔ ∃ dr dc : Int,
      (dr = -1 ∨ dr = 0 ∨ dr = 1) ∧ (dc = -1 ∨ dc = 0 ∨ dc = 1) ∧ ¬ (dr = 0 ∧ dc = 0) ∧
      (0 ≤ row + dr ∧ row + dr < (shape g).length) ∧
      (0 ≤ column + dc ∧ column + dc < (shape g).headD 0) ∧
      (allowDiagonals = false → dr = 0 ∨ dc = 0) ∧ q = (row + dr, column + dc) := by
    intro q
    simp only [List.mem_map, List.mem_filter, mem_rowMajorOffsets, isNeighbourOffset,
      Bool.and_eq_true, Bool.or_eq_true, decide_eq_true_eq, ne_eq, Prod.mk.injEq, Prod.exists]
    constructor
    · rintro ⟨dr, dc, ⟨⟨h1, h2⟩, ⟨h3, h4⟩, h5⟩, rfl⟩
      refine ⟨dr, dc, h1, h2, h3, ⟨h4.1, h4.2.1⟩, ⟨h4.2.2.1, h4.2.2.2⟩, ?_, rfl⟩
      intro hd
      rcases h5 with h5 | h5
      · rw [hd] at h5; cases h5
      · exact h5
    · rintro ⟨dr, dc, h1, h2, h3, h4, h5, h6, rfl⟩
      refine ⟨dr, dc, ⟨⟨h1, h2⟩, ⟨h3, h4.1, h4.2, h5.1, h5.2⟩, ?_⟩, rfl⟩
      cases allowDiagonals with
      | true => exact Or.inl rfl
      | false => exact Or.inr (h6 rfl)
  refine ⟨_, hget, rfl, hmem, ?_, ?_, length_getSurroundingTiles_le hget, ?_⟩
  · apply List.Nodup.map
    · intro a b hab
      simp only [Prod.mk.injEq] at hab
      exact Prod.ext (by omega) (by omega)
    · exact List.Nodup.filter _ (by decide)
  · intro hin
    obtain ⟨dr, dc, _, _, h3, _, _, _, e⟩ := (hmem (row, column)).1 hin
    simp only [Prod.mk.injEq] at e
    exact h3 ⟨by omega, by omega⟩
  · intro hd
    rw [List.length_map, ← List.countP_eq_length_filter]
    have hle : List.countP (isNeighbourOffset (shape g).length ((shape g).headD 0) row column
        allowDiagonals) rowMajorOffsets ≤
        List.countP (fun o => decide (o ≠ (0, 0)) && decide (o.1 = 0 ∨ o.2 = 0))
          rowMajorOffsets := by
      apply List.countP_mono_left
      intro o _ ho
      simp only [isNeighbourOffset, hd, Bool.false_or, Bool.and_eq_true] at ho
      simp only [Bool.and_eq_true]
      exact ⟨ho.1.1, ho.2⟩
    have h4 : List.countP (fun o : Int × Int => decide (o ≠ (0, 0)) && decide (o.1 = 0 ∨ o.2 = 0))
        rowMajorOffsets = 4 := by decide
    omega

/-- Witness for C12: the neighbours of the corner (0,0) of a 2x3 grid. -/
theorem getSurroundingTiles_spec_witness :
    getSurroundingTiles (generateGrid [] 2 3) 0 0 true = some [(0, 1), (1, 0), (1, 1)] := by
  obtain ⟨l, h1, h2, _⟩ := getSurroundingTiles_spec (generateGrid [] 2 3) 0 0 true
    (by decide) (by decide)
  rw [h1, h2]
  decide

/-- C11 (as stated, refuted): the claim also covers a revealed tile that is a mine.
On the 1x2 grid with a revealed mine at (0,0) and a hidden, unmarked safe tile at
(0,1), the tile (0,0) is revealed and not marked, the number of its neighbours
that are marked or revealed mines (0) equals the number of its neighbouring mines
(0), and yet `guessTile(0, 0, false)` leaves the grid unchanged: the unmarked
neighbour (0,1) is not revealed. -/
theorem chord_on_revealed_mine :
    Rect [[⟨true, true, false⟩, ⟨false, false, false⟩]] ∧
    InBounds [[⟨true, true, false⟩, ⟨false, false, false⟩]] 0 0 ∧
    getTile [[⟨true, true, false⟩, ⟨false, false, false⟩]] 0 0 = some ⟨true, true, false⟩ ∧
    getSurroundingTiles [[⟨true, true, false⟩, ⟨false, false, false⟩]] 0 0 true
      = some [(0, 1)] ∧
    [((0 : Int), (1 : Int))].countP (tileHas [[⟨true, true, false⟩, ⟨false, false, false⟩]]
      (fun t => t.marked || (t.mine && t.revealed))) =
      [((0 : Int), (1 : Int))].countP (tileHas [[⟨true, true, false⟩, ⟨false, false, false⟩]]
        (fun t => t.mine)) ∧
    getTile [[⟨true, true, false⟩, ⟨false, false, false⟩]] 0 1 = some ⟨false, false, false⟩ ∧
    ∀ rnd : Nat → Nat,
      guessTile [[⟨true, true, false⟩, ⟨false, false, false⟩]] 0 0 false rnd =
        some ([[⟨true, true, false⟩, ⟨false, false, false⟩]], (true, false)) :=
  ⟨by decide, by decide, by decide, by decide, by decide, by decide, fun _ => rfl⟩

/-- C11 (amended): chord rule.  On a rectangular grid, for an in-bounds coordinate
whose tile is revealed and not marked, `guessTile(row, column, false)` returns;
if the tile is a mine no tile changes; if it is not a mine and the number of
neighbours that are marked or are revealed mines equals the number of neighbouring
mines, then after the call every neighbour that was unmarked is revealed (mine or
not); otherwise no tile changes. -/
theorem chord_rule (g : Grid) (row column : Int) (rnd : Nat → Nat) (t : Tile)
    (hR : Rect g) (hB : InBounds g row column) (ht : getTile g row column = some t)
    (hrev : t.revealed = true) (hk : t.marked = false) :
    ∃ nb g', getSurroundingTiles g row column true = some nb ∧
      guessTile g row column false rnd = some (g', checkWin g') ∧
      (t.mine = true → g' = g) ∧
      (t.mine = false →
        if nb.countP (tileHas g (fun t => t.marked || (t.mine && t.revealed))) =
            nb.countP (tileHas g (fun t => t.mine)) then
          ∀ q ∈ nb, ∀ tq, getTile g q.1 q.2 = some tq → tq.marked = false →
            ∃ tq', getTile g' q.1 q.2 = some tq' ∧ tq'.revealed = true
        else g' = g) := by
  have hne : shape g ≠ [] := shape_ne_nil_of_inBounds hB
  obtain ⟨nb, hnb⟩ : ∃ nb, getSurroundingTiles g row column true = some nb :=
    ⟨_, getSurroundingTiles_eq g hne row column true⟩
  have hnbB := mem_getSurroundingTiles_inBounds hnb
  have he : isGridEmpty g = false := (isGridEmpty_eq_false_iff g).2 ⟨row, column, t, ht, hrev⟩
  have key : ∃ g', guessTile g row column false rnd = some (g', checkWin g') ∧
      (t.mine = true → g' = g) ∧
      (t.mine = false →
        if nb.countP (tileHas g (fun t => t.marked || (t.mine && t.revealed))) =
            nb.countP (tileHas g (fun t => t.mine)) then
          ∀ q ∈ nb, ∀ tq, getTile g q.1 q.2 = some tq → tq.marked = false →
            ∃ tq', getTile g' q.1 q.2 = some tq' ∧ tq'.revealed = true
        else g' = g) := by
    cases hm : t.mine with
    | true =>
      refine ⟨g, ?_, fun _ => rfl, fun h => by cases h⟩
      simp [guessTile, ht, hk, hrev, hm, he]
    | false =>
      obtain ⟨n, hn⟩ := countMarks_isSome g nb (fun q hq => getTile_isSome hR (hnbB q hq))
      obtain ⟨m, hmn⟩ := getSurroundingMines_isSome hR row column hne
      have hmn' := hmn
      unfold getSurroundingMines at hmn'
      rw [hnb] at hmn'
      simp only at hmn'
      have e1 := countMarks_eq hn
      have e2 := filterCoords_length hmn'
      by_cases heq : n = m.length
      · obtain ⟨g', hg', _⟩ := chordLoop_spec nb g hR hnbB
        refine ⟨g', ?_, (fun h => Bool.noConfusion h), fun _ => ?_⟩
        · simp [guessTile, ht, hk, hrev, hm, hnb, hn, hmn, heq, hg']
        · rw [← e1, ← e2, if_pos heq]
          exact chordLoop_reveals nb g g' hR hnbB hg'
      · refine ⟨g, ?_, (fun h => Bool.noConfusion h), fun _ => ?_⟩
        · simp [guessTile, ht, hk, hrev, hm, hnb, hn, hmn, heq]
        · rw [← e1, ← e2, if_neg heq]
  obtain ⟨g', h1, h2, h3⟩ := key
  exact ⟨nb, g', hnb, h1, h2, h3⟩

/-- Witness for C11 (amended): a chord click on the revealed safe tile (0,1) of a
1x3 grid whose mine at (0,0) is flagged. -/
theorem chord_rule_witness :
    ∃ nb g', getSurroundingTiles
        [[⟨true, false, true⟩, ⟨false, true, false⟩, ⟨false, false, false⟩]] 0 1 true = some nb ∧
      guessTile [[⟨true, false, true⟩, ⟨false, true, false⟩, ⟨false, false, false⟩]] 0 1 false
        (fun i => i) = some (g', checkWin g') ∧
      ((⟨false, true, false⟩ : Tile).mine = true →
        g' = [[⟨true, false, true⟩, ⟨false, true, false⟩, ⟨false, false, false⟩]]) ∧
      ((⟨false, true, false⟩ : Tile).mine = false →
        if nb.countP (tileHas
              [[⟨true, false, true⟩, ⟨false, true, false⟩, ⟨false, false, false⟩]]
              (fun t => t.marked || (t.mine && t.revealed))) =
            nb.countP (tileHas
              [[⟨true, false, true⟩, ⟨false, true, false⟩, ⟨false, false, false⟩]]
              (fun t => t.mine)) then
          ∀ q ∈ nb, ∀ tq,
            getTile [[⟨true, false, true⟩, ⟨false, true, false⟩, ⟨false, false, false⟩]]
              q.1 q.2 = some tq → tq.marked = false →
            ∃ tq', getTile g' q.1 q.2 = some tq' ∧ tq'.revealed = true
        else g' = [[⟨true, false, true⟩, ⟨false, true, false⟩, ⟨false, false, false⟩]]) :=
  chord_rule [[⟨true, false, true⟩, ⟨false, true, false⟩, ⟨false, false, false⟩]] 0 1
    (fun i => i) ⟨false, true, false⟩ (by decide) (by decide) (by decide) rfl rfl

/-- C19: conditional safe first click: on a fully unrevealed rectangular grid, for
an in-bounds coordinate whose tile is an unmarked mine, if the placing loop of
`placeMines(1)` pops a coordinate other than the clicked one, then
`guessTile(row, column, false)` returns, the clicked tile ends revealed and not a
mine, no revealed tile is a mine, and the result is not `(true, false)`. -/
theorem first_click_safe_if_relocated (g : Grid) (row column : Int) (rnd : Nat → Nat)
    (t : Tile) (hR : Rect g) (hB : InBounds g row column)
    (hhidden : ∀ (r c : Int) (t' : Tile), getTile g r c = some t' → t'.revealed = false)
    (ht : getTile g row column = some t) (hm : t.mine = true) (hk : t.marked = false)
    (hsel : firstPlaced (updTile (updTile g row column (setMine false)) row column
      (setRevealed true)) rnd ≠ some (row, column)) :
    ∃ g' res, guessTile g row column false rnd = some (g', res) ∧ res ≠ (true, false) ∧
      (∃ t', getTile g' row column = some t' ∧ t'.revealed = true ∧ t'.mine = false) ∧
      (∀ (r c : Int) (t' : Tile), getTile g' r c = some t' → t'.revealed = true →
        t'.mine = false) := by
  have hempty : isGridEmpty g = true := isGridEmpty_of_all_hidden hhidden
  obtain ⟨t0, g', ht0, hrun, hcase⟩ := guessTile_cases hR hB false rnd
  rw [ht] at ht0
  cases ht0
  have hs1 : shape (updTile (updTile g row column (setMine false)) row column
      (setRevealed true)) = shape g := by
    rw [shape_updTile, shape_updTile]
  have hne : shape g ≠ [] := shape_ne_nil_of_inBounds hB
  rcases hcase with ⟨h, _⟩ | ⟨_, _, g2, hpl, _, _, _, hrel⟩ | ⟨_, h, _⟩
  · simp [hk] at h
  · -- the grid after `placeMines(1)` still has the clicked tile revealed and mine-free
    have hclick1 := getTile_firstClick ht row column
    simp only [and_self, if_true] at hclick1
    have hg2 : ∀ r c : Int, ∃ f : Tile → Tile, (∀ x, (f x).revealed = x.revealed) ∧
        (∀ x, x.mine = true → (f x).mine = true) ∧
        getTile g2 r c = (getTile (updTile (updTile g row column (setMine false)) row column
          (setRevealed true)) r c).map f ∧
        ((r, c) = (row, column) → ∀ x, f x = x) := by
      intro r c
      rcases placeMines_one (Rect_of_shape hs1 hR) (hs1 ▸ hne) rnd with ⟨_, h⟩ | ⟨q, hq, h⟩
      · rw [hpl] at h
        cases h
        exact ⟨id, fun _ => rfl, fun _ hx => hx, by simp, fun _ _ => rfl⟩
      · rw [hpl] at h
        cases h
        by_cases e : q.1 = r ∧ q.2 = c
        · refine ⟨setMine true, fun _ => rfl, fun _ _ => rfl, ?_, ?_⟩
          · obtain ⟨rfl, rfl⟩ := e
            rw [getTile_updTile_same]
          · intro hrc
            exfalso
            apply hsel
            rw [hq]
            simp only [Prod.mk.injEq] at hrc
            exact congrArg some (Prod.ext (e.1.trans hrc.1) (e.2.trans hrc.2))
        · exact ⟨id, fun _ => rfl, fun _ hx => hx,
            by rw [getTile_updTile_ne _ _ _ _ _ _ e]; simp, fun _ _ => rfl⟩
    have hclick2 : getTile g2 row column = some (setRevealed true (setMine false t)) := by
      obtain ⟨f, _, _, hf, hid⟩ := hg2 row column
      rw [hf, hclick1, Option.map_some', hid rfl]
    have hsafe : ∀ (r c : Int) (t' : Tile), getTile g' r c = some t' → t'.revealed = true →
        t'.mine = false := by
      intro r c t' ht' hrev'
      rcases hrel.2 r c with e | ⟨t2, _, hok, e⟩
      · rw [ht'] at e
        by_cases hrc : row = r ∧ column = c
        · obtain ⟨rfl, rfl⟩ := hrc
          rw [hclick2] at e
          cases e
          rfl
        · exfalso
          obtain ⟨f, hfr, _, hf, _⟩ := hg2 r c
          rw [getTile_firstClick ht] at hf
          simp only [hrc, if_false] at hf
          rw [← e] at hf
          cases hg : getTile g r c with
          | none => simp [hg] at hf
          | some x =>
            simp only [hg, Option.map_some', Option.some.injEq] at hf
            have := hhidden r c x hg
            rw [hf, hfr, this] at hrev'
            cases hrev'
      · rw [ht'] at e
        cases e
        simp only [floodable, Bool.and_eq_true, Bool.not_eq_true'] at hok
        exact hok.1
    have hclick3 : ∃ t', getTile g' row column = some t' ∧ t'.revealed = true ∧
        t'.mine = false := by
      obtain ⟨t', ht', hmine, _, hkeep, _⟩ := revealsWhere_tile hrel hclick2
      exact ⟨t', ht', hkeep rfl, hmine⟩
    refine ⟨g', _, hrun, ?_, hclick3, hsafe⟩
    apply checkWin_ne_loss
    cases hl : hasRevealedMine g' with
    | false => rfl
    | true =>
      obtain ⟨r, c, t', ht', h1, h2⟩ := (hasRevealedMine_iff_getTile g').1 hl
      rw [hsafe r c t' ht' h1] at h2
      cases h2
  · simp [hm, hempty] at h

/-- Witness for C19: a first click on the only mine (0,0) of a hidden 2x2 grid, with
a shuffle that leaves (1,1) last. -/
theorem first_click_safe_if_relocated_witness :
    ∃ g' res, guessTile [[⟨true, false, false⟩, ⟨false, false, false⟩],
        [⟨false, false, false⟩, ⟨false, false, false⟩]] 0 0 false (fun i => i) = some (g', res) ∧
      res ≠ (true, false) ∧
      (∃ t', getTile g' 0 0 = some t' ∧ t'.revealed = true ∧ t'.mine = false) ∧
      (∀ (r c : Int) (t' : Tile), getTile g' r c = some t' → t'.revealed = true →
        t'.mine = false) :=
  first_click_safe_if_relocated [[⟨true, false, false⟩, ⟨false, false, false⟩],
      [⟨false, false, false⟩, ⟨false, false, false⟩]] 0 0 (fun i => i) ⟨true, false, false⟩
    (by decide) (by decide)
    (all_hidden_of_isGridEmpty (by decide))
    (by decide) rfl rfl (by decide)

/-- C13: `revealSafeTilesFrom` terminates: on a rectangular grid with `R` rows and
`C` columns and an in-bounds start, the work-list loop finishes (after at most
`8 * R * C + 1` iterations, whatever extra fuel it is given), no coordinate gets
past the visited check twice, and at most `R * C` coordinates get past it. -/
theorem revealSafeTilesFrom_terminates (g : Grid) (row column : Int) (hR : Rect g)
    (hB : InBounds g row column) :
    ∃ (g' : Grid) (visited : List Coord) (iterations : Nat),
      revealTrace (revealFuel g) g [(row, column)] [] = some (g', visited, iterations) ∧
      revealSafeTilesFrom g row column = some g' ∧
      iterations ≤ 8 * ((shape g).length * (shape g).headD 0) + 1 ∧
      visited.Nodup ∧ visited.length ≤ (shape g).length * (shape g).headD 0 ∧
      ∀ extra, revealTrace (revealFuel g + extra) g [(row, column)] []
        = some (g', visited, iterations) := by
  obtain ⟨g', hrun, _⟩ := revealSafeTilesFrom_spec hR hB
  have hrun' := hrun
  unfold revealSafeTilesFrom at hrun'
  rw [revealLoop_eq_trace] at hrun'
  cases htr : revealTrace (revealFuel g) g [(row, column)] [] with
  | none => rw [htr] at hrun'; cases hrun'
  | some res =>
    rcases res with ⟨g'', visited, iterations⟩
    rw [htr] at hrun'
    simp only [Option.map_some', Option.some.injEq] at hrun'
    subst hrun'
    have hst : ∀ q ∈ [(row, column)], InBounds g q.1 q.2 := by
      intro q hq
      simp only [List.mem_singleton] at hq
      subst hq
      exact hB
    obtain ⟨hnd, hin, _, hn⟩ := revealTrace_bounds _ g _ [] _ _ _ htr hst
      (fun q hq => by cases hq) List.nodup_nil
    have hlen := length_le_cellCount hnd hin
    simp only [cellCount] at hlen
    simp only [List.length_singleton, List.length_nil, Nat.mul_zero, Nat.add_zero] at hn
    refine ⟨_, visited, iterations, rfl, hrun, by omega, hnd, hlen, ?_⟩
    intro extra
    exact revealTrace_fuel_mono _ _ _ _ _ htr extra

/-- Witness for C13: the flood fill started at (1,2) of a 2x3 grid with one mine. -/
theorem revealSafeTilesFrom_terminates_witness :
    ∃ (g' : Grid) (visited : List Coord) (iterations : Nat),
      revealTrace (revealFuel [[⟨true, false, false⟩, ⟨false, false, false⟩, ⟨false, false, false⟩],
          [⟨false, false, false⟩, ⟨false, false, false⟩, ⟨false, false, false⟩]])
        [[⟨true, false, false⟩, ⟨false, false, false⟩, ⟨false, false, false⟩],
          [⟨false, false, false⟩, ⟨false, false, false⟩, ⟨false, false, false⟩]] [(1, 2)] []
        = some (g', visited, iterations) ∧
      revealSafeTilesFrom [[⟨true, false, false⟩, ⟨false, false, false⟩, ⟨false, false, false⟩],
        [⟨false, false, false⟩, ⟨false, false, false⟩, ⟨false, false, false⟩]] 1 2 = some g' ∧
      iterations ≤ 8 * ((shape [[⟨true, false, false⟩, ⟨false, false, false⟩,
          ⟨false, false, false⟩], [⟨false, false, false⟩, ⟨false, false, false⟩,
          ⟨false, false, false⟩]]).length *
        (shape [[⟨true, false, false⟩, ⟨false, false, false⟩, ⟨false, false, false⟩],
          [⟨false, false, false⟩, ⟨false, false, false⟩, ⟨false, false, false⟩]]).headD 0) + 1 ∧
      visited.Nodup ∧
      visited.length ≤ (shape [[⟨true, false, false⟩, ⟨false, false, false⟩,
          ⟨false, false, false⟩], [⟨false, false, false⟩, ⟨false, false, false⟩,
          ⟨false, false, false⟩]]).length *
        (shape [[⟨true, false, false⟩, ⟨false, false, false⟩, ⟨false, false, false⟩],
          [⟨false, false, false⟩, ⟨false, false, false⟩, ⟨false, false, false⟩]]).headD 0 ∧
      ∀ extra, revealTrace (revealFuel [[⟨true, false, false⟩, ⟨false, false, false⟩,
          ⟨false, false, false⟩], [⟨false, false, false⟩, ⟨false, false, false⟩,
          ⟨false, false, false⟩]] + extra)
        [[⟨true, false, false⟩, ⟨false, false, false⟩, ⟨false, false, false⟩],
          [⟨false, false, false⟩, ⟨false, false, false⟩, ⟨false, false, false⟩]] [(1, 2)] []
        = some (g', visited, iterations) :=
  revealSafeTilesFrom_terminates _ 1 2 (by decide) (by decide)

/-- C15: flood-fill reference definition: on a rectangular grid and an in-bounds
start, `revealSafeTilesFrom` returns, and the tiles revealed after it are exactly
the tiles revealed before together with the set `FloodSet`, which is the least set
`S` such that (i) the start is in `S` if it is neither a mine nor marked, and
(ii) whenever `s` is in `S` and has zero surrounding mines, every neighbour of `s`
that is neither a mine nor marked is in `S`. -/
theorem flood_reference (g : Grid) (row column : Int) (hR : Rect g)
    (hB : InBounds g row column) :
    ∃ g', revealSafeTilesFrom g row column = some g' ∧
      (∀ r c : Int, revAt g' r c = true ↔
        (revAt g r c = true ∨ FloodSet g (row, column) (r, c))) ∧
      (tileHas g floodable (row, column) = true → FloodSet g (row, column) (row, column)) ∧
      (∀ s q : Coord, FloodSet g (row, column) s → minesAround g s = 0 →
        q ∈ neighboursOf g s → tileHas g floodable q = true → FloodSet g (row, column) q) ∧
      (∀ S : Coord → Prop,
        (tileHas g floodable (row, column) = true → S (row, column)) →
        (∀ s q : Coord, S s → minesAround g s = 0 → q ∈ neighboursOf g s →
          tileHas g floodable q = true → S q) →
        ∀ q, FloodSet g (row, column) q → S q) := by
  obtain ⟨g', vis', hrun, _, inv⟩ := revealSafeTilesFrom_flood hR hB
  refine ⟨g', hrun, ?_, FloodSet.start, fun s q => FloodSet.step s q, ?_⟩
  · intro r c
    constructor
    · intro h
      rcases inv.sound r c h with h | ⟨hv, hnv, hfl⟩
      · exact Or.inl h
      · exact Or.inr (floodSet_of_pushed (inv.pushed _ hv hnv) hfl)
    · rintro (h | h)
      · exact inv.revMono r c h
      · exact (floodInv_complete inv h).2
  · intro S h1 h2 q hq
    induction hq with
    | start hfl => exact h1 hfl
    | step s q _ hz hq hfl ih => exact h2 s q ih hz hq hfl

/-- Witness for C15: the flood fill started at (1,2) of a 2x3 grid with a mine at
(0,0) and a flag at (1,0). -/
theorem flood_reference_witness :
    ∃ g', revealSafeTilesFrom
        [[⟨true, false, false⟩, ⟨false, false, false⟩, ⟨false, false, false⟩],
         [⟨false, false, true⟩, ⟨false, false, false⟩, ⟨false, false, false⟩]] 1 2 = some g' ∧
      (∀ r c : Int, revAt g' r c = true ↔
        (revAt [[⟨true, false, false⟩, ⟨false, false, false⟩, ⟨false, false, false⟩],
          [⟨false, false, true⟩, ⟨false, false, false⟩, ⟨false, false, false⟩]] r c = true ∨
         FloodSet [[⟨true, false, false⟩, ⟨false, false, false⟩, ⟨false, false, false⟩],
          [⟨false, false, true⟩, ⟨false, false, false⟩, ⟨false, false, false⟩]] (1, 2) (r, c))) :=
  let ⟨g', h1, h2, _⟩ := flood_reference
    [[⟨true, false, false⟩, ⟨false, false, false⟩, ⟨false, false, false⟩],
     [⟨false, false, true⟩, ⟨false, false, false⟩, ⟨false, false, false⟩]] 1 2
    (by decide) (by decide)
  ⟨g', h1, h2⟩

/-- C16: flood-fill frame: on a rectangular grid and an in-bounds start,
`revealSafeTilesFrom` returns and changes no tile's `mine` or `marked` flag; every
tile it turns from unrevealed to revealed is neither a mine nor marked, and is the
start or a neighbour of a revealed tile that is neither a mine nor marked and has
zero surrounding mines; a marked tile keeps its `revealed` flag. -/
theorem flood_frame (g : Grid) (row column : Int) (hR : Rect g)
    (hB : InBounds g row column) :
    ∃ g', revealSafeTilesFrom g row column = some g' ∧ shape g' = shape g ∧
      ∀ (r c : Int) (t : Tile), getTile g r c = some t →
        ∃ t', getTile g' r c = some t' ∧ t'.mine = t.mine ∧ t'.marked = t.marked ∧
          (t.revealed = false → t'.revealed = true →
            t.mine = false ∧ t.marked = false ∧
            ((r, c) = (row, column) ∨ ∃ s : Coord, (r, c) ∈ neighboursOf g s ∧
              minesAround g s = 0 ∧ tileHas g floodable s = true ∧
              revAt g' s.1 s.2 = true)) ∧
          (t.marked = true → t'.revealed = t.revealed) := by
  obtain ⟨g', vis', hrun, hrel, inv⟩ := revealSafeTilesFrom_flood hR hB
  refine ⟨g', hrun, hrel.1, ?_⟩
  intro r c t ht
  obtain ⟨t', ht', hmine, hmark, hkeep, hnew⟩ := revealsWhere_tile hrel ht
  refine ⟨t', ht', hmine, hmark, ?_, ?_⟩
  · intro hhid hrev
    have hfl : floodable t = true := by
      rcases hnew hrev with h | h
      · rw [hhid] at h; cases h
      · exact h
    have hfl' := hfl
    simp only [floodable, Bool.and_eq_true, Bool.not_eq_true'] at hfl'
    refine ⟨hfl'.1, hfl'.2, ?_⟩
    have hr' : revAt g' r c = true := by simp [revAt, ht', hrev]
    rcases inv.sound r c hr' with h | ⟨hv, hnv, _⟩
    · simp [revAt, ht, hhid] at h
    · rcases inv.pushed _ hv hnv with h | ⟨s, hs, hz, hq⟩
      · exact Or.inl h
      · exact Or.inr ⟨s, hq, hz, floodSet_floodable hs, (floodInv_complete inv hs).2⟩
  · intro hmk
    cases h' : t'.revealed with
    | true =>
      rcases hnew h' with h | h
      · exact h.symm
      · simp [floodable, hmk] at h
    | false =>
      cases h0 : t.revealed with
      | false => rfl
      | true =>
        have := hkeep h0
        rw [h'] at this
        cases this

/-- Witness for C16: the flood fill started at (1,2) of a 2x3 grid with a mine at
(0,0) and a flag at (1,0). -/
theorem flood_frame_witness :
    ∃ g', revealSafeTilesFrom
        [[⟨true, false, false⟩, ⟨false, false, false⟩, ⟨false, false, false⟩],
         [⟨false, false, true⟩, ⟨false, false, false⟩, ⟨false, false, false⟩]] 1 2 = some g' ∧
      shape g' = shape [[⟨true, false, false⟩, ⟨false, false, false⟩, ⟨false, false, false⟩],
         [⟨false, false, true⟩, ⟨false, false, false⟩, ⟨false, false, false⟩]] :=
  let ⟨g', h1, h2, _⟩ := flood_frame
    [[⟨true, false, false⟩, ⟨false, false, false⟩, ⟨false, false, false⟩],
     [⟨false, false, true⟩, ⟨false, false, false⟩, ⟨false, false, false⟩]] 1 2
    (by decide) (by decide)
  ⟨g', h1, h2⟩

end Minesweeper
